import Mathlib

/-!
Shallow embedding of the 3D bin-packing heuristic found in this repository.

Source mapping (TypeScript → Lean):
* `type.ts`          → the structures `Pallet`, `Box`, `PlacedBox`, `LayerCandidate`.
  The TS `Box.id` is a string; it is modelled as a numeric identifier, which is
  faithful because the code only ever copies and compares identifiers.
* `packing.ts`       → `mergeNodes`, `skylineUpdate`, `findBestBoxForGap`
  (via `findBestAux`/`pickOrient`/`scoreOf`), `packLayerSkyline`
  (via `scanGaps`/`spanSeg`/`stepPlace`/`packLayerLoop`) and
  `packPalletWithLayers` (via `packLayers`).  The two `while` loops are embedded
  as fuel recursion; the fuel `totalQtyNat boxes + 1` is sufficient because every
  loop iteration commits at least one unit (proved below as fuel-irrelevance).
* `layers.ts`        → `buildLayerCandidates` (via `boxDims`, `scoreForHeight`,
  `mapSet`, `collectHeights`).  The JS `Map` preserves insertion order and
  updates values in place, which `mapSet` mirrors; the final
  `Array.prototype.sort` by `evalScore` is a stable sort (ECMAScript 2019+) and
  is modelled by Mathlib's `List.insertionSort`, which is stable for a `≤`
  comparison.
* `utils.ts`         → `getPalletOrientations` (via `palletDims`, `dedupSeen`).
  The JS dedup key is the comma-joined string of the three numbers, which is
  injective on number triples, so it is modelled as equality of triples.

All dimensions are rational numbers (the source treats them as exact numeric
values; no floating-point rounding is exercised by the algorithm).
-/

/- The Batteries library marks rational addition, multiplication and
subtraction as irreducible, which would block concrete kernel evaluation of
the packing functions; re-expose them for this file. -/
attribute [local semireducible] Rat.add Rat.mul Rat.sub Rat.inv

namespace BinPack

/-- Pallet dimensions `(w, h, d)` (interface `Pallet` in `type.ts`). -/
structure Pallet where
  w : ℚ
  h : ℚ
  d : ℚ
deriving DecidableEq, Repr

/-- A box type: identifier, dimensions, and remaining quantity
(interface `Box` in `type.ts`). -/
structure Box where
  id : Nat
  w : ℚ
  h : ℚ
  d : ℚ
  qty : Int
deriving DecidableEq, Repr

/-- A skyline breakpoint: from position `x` (up to the next breakpoint) the
filled depth is `z` (`type Node` in `packing.ts`). -/
structure Node where
  x : ℚ
  z : ℚ
deriving DecidableEq, Repr

/-- A committed unit (interface `PlacedBox` in `type.ts`): identifier, the
extents of the chosen orientation, `qty` (always 1 for a placement), the anchor
position `(x, y, z)` and the orientation triple `[bw, bh, bd]`. -/
structure PlacedBox where
  id : Nat
  w : ℚ
  h : ℚ
  d : ℚ
  qty : Int
  x : ℚ
  y : ℚ
  z : ℚ
  orient : ℚ × ℚ × ℚ
deriving DecidableEq, Repr

/-- A candidate layer height with its evaluation score
(interface `LayerCandidate` in `type.ts`). -/
structure LayerCandidate where
  height : ℚ
  evalScore : ℚ
deriving DecidableEq, Repr

/-- The result of `packPalletWithLayers`: all placements of the best attempt
and its utilization ratio. -/
structure PackResult where
  placed : List PlacedBox
  utilization : ℚ
deriving DecidableEq, Repr

/-! ### Skyline profile operations (`packing.ts` lines 37–145) -/

/-- `mergeNodes` (`packing.ts` lines 37–52): collapse every maximal run of
adjacent nodes with equal `z` into a single node.  The source walks left to
right and, on seeing a node with the same `z` as the last kept node, overwrites
the kept node's `x` with the later node's `x` ("drop n (it is redundant) but
keep x for boundary"); thus each run is collapsed to the *last* node of the
run.  The structural right-to-left recursion below computes exactly that run
collapse. -/
def mergeNodes : List Node → List Node
  | [] => []
  | n :: rest =>
    match mergeNodes rest with
    | [] => [n]
    | m :: ms => if n.z = m.z then m :: ms else n :: m :: ms

/-- Overwrite the `z` field of the last node of a list (the in-place assignment
`out[out.length - 1].z = newTop` at `packing.ts` line 115). -/
def setLastZ : List Node → ℚ → List Node
  | [], _ => []
  | [n], zNew => [⟨n.x, zNew⟩]
  | n :: m :: rest, zNew => n :: setLastZ (m :: rest) zNew

/-- `skylineUpdate` (`packing.ts` lines 99–145): set the filled depth over the
half-open interval `[x, x + bw)` to `newTop`.
* keep the nodes strictly left of `x`;
* push a node `⟨x, newTop⟩` (the source computes a `prevZ` at line 111 but
  never uses it, and pushes unconditionally; the `else` branch overwriting the
  last kept node applies when that node sits exactly at `x`, which cannot
  happen because only nodes with `nodes[i].x < x` were kept);
* skip the original nodes with `x ≤ nodes[i].x ≤ rightX`;
* let `zAfter` be the `z` of the last original node with `nodes[k].x ≤ rightX`
  (0 if none);
* if `rightX` is strictly left of the sentinel, push `⟨rightX, zAfter⟩` when
  `zAfter ≠ newTop` and then the remaining original nodes, otherwise push a
  copy of the sentinel;
* finally merge adjacent equal-`z` runs. -/
def skylineUpdate (nodes : List Node) (x bw newTop : ℚ) : List Node :=
  let rightX := x + bw
  let left := nodes.takeWhile (fun n => n.x < x)
  let out1 :=
    match left.getLast? with
    | none => left ++ [⟨x, newTop⟩]
    | some lastKept =>
        if lastKept.x ≠ x then left ++ [⟨x, newTop⟩] else setLastZ left newTop
  let rest := (nodes.dropWhile (fun n => n.x < x)).dropWhile (fun n => n.x ≤ rightX)
  let zAfter := ((nodes.filter (fun n => n.x ≤ rightX)).getLast?.map Node.z).getD 0
  let lastNode := nodes.getLast?.getD ⟨0, 0⟩
  let out2 :=
    if rightX < lastNode.x then
      (if zAfter ≠ newTop then out1 ++ [⟨rightX, zAfter⟩] else out1) ++ rest
    else
      out1 ++ [⟨lastNode.x, lastNode.z⟩]
  mergeNodes out2

/-! ### Best-box selection (`packing.ts` lines 156–202) -/

/-- The six axis-aligned orientations of a box, in the order enumerated at
`packing.ts` lines 170–177 (each triple is `(bw, bh, bd)`). -/
def orientsOf (b : Box) : List (ℚ × ℚ × ℚ) :=
  [(b.w, b.h, b.d), (b.w, b.d, b.h), (b.h, b.w, b.d),
   (b.h, b.d, b.w), (b.d, b.w, b.h), (b.d, b.h, b.w)]

/-- The composite score computed at `packing.ts` lines 192–193 for an
orientation `o = (bw, bh, bd)` against a gap of width `gapWidth` and available
depth `gapDepth`: `primaryPenalty * 10000 + |bw - gapWidth| * 100 +
|bd - gapDepth|`, where `primaryPenalty` is `|layerHeight - bh|` when
`bh ≤ maxAvailableY` and `100000 + |bh - layerHeight|` otherwise. -/
def scoreOf (gapWidth gapDepth layerHeight maxAvailableY : ℚ) (o : ℚ × ℚ × ℚ) : ℚ :=
  let primaryPenalty :=
    if o.2.1 ≤ maxAvailableY then |layerHeight - o.2.1| else 100000 + |o.2.1 - layerHeight|
  primaryPenalty * 10000 + |o.1 - gapWidth| * 100 + |o.2.2 - gapDepth|

/-- A selection candidate: box index, orientation and its score (the record
built at `packing.ts` line 196). -/
structure Cand where
  index : Nat
  orient : ℚ × ℚ × ℚ
  score : ℚ
deriving DecidableEq, Repr

/-- One iteration of the inner orientation loop of `findBestBoxForGap`
(`packing.ts` lines 179–198): skip the orientation when its width exceeds the
gap width or its depth exceeds the gap depth; otherwise replace the running
best exactly when the new score is strictly smaller (so the earliest minimal
candidate is kept). -/
def pickOrient (gapWidth gapDepth layerHeight maxAvailableY : ℚ) (i : Nat)
    (best : Option Cand) (o : ℚ × ℚ × ℚ) : Option Cand :=
  if gapWidth < o.1 then best
  else if gapDepth < o.2.2 then best
  else
    let score := scoreOf gapWidth gapDepth layerHeight maxAvailableY o
    match best with
    | none => some ⟨i, o, score⟩
    | some c => if score < c.score then some ⟨i, o, score⟩ else best

/-- The outer loop of `findBestBoxForGap` (`packing.ts` lines 166–199),
carrying the index of the current box: box types with `qty ≤ 0` are skipped
entirely. -/
def findBestAux (gapWidth gapDepth layerHeight maxAvailableY : ℚ) :
    Nat → List Box → Option Cand → Option Cand
  | _, [], best => best
  | i, b :: rest, best =>
    let best' :=
      if b.qty ≤ 0 then best
      else (orientsOf b).foldl (pickOrient gapWidth gapDepth layerHeight maxAvailableY i) best
    findBestAux gapWidth gapDepth layerHeight maxAvailableY (i + 1) rest best'

/-- `findBestBoxForGap` (`packing.ts` lines 156–202): the best-scoring
(box, orientation) pair that fits a gap of width `gapWidth` and available
depth `gapDepth`, or `none` when nothing fits. -/
def findBestBoxForGap (boxes : List Box) (gapWidth gapDepth layerHeight maxAvailableY : ℚ) :
    Option Cand :=
  findBestAux gapWidth gapDepth layerHeight maxAvailableY 0 boxes none

/-! ### The layer packing loop (`packing.ts` lines 211–315) -/

/-- Fold the maximum `z` over a list of nodes starting from `init` (the
`maxZ = Math.max(maxZ, nodes[k].z)` accumulations). -/
def maxZFrom (init : ℚ) (l : List Node) : ℚ :=
  l.foldl (fun a n => max a n.z) init

/-- Maximum `z` of a segment of nodes (0 for an empty segment; every use site
passes a non-empty segment, matching the source's `-Infinity` seed that is
always overwritten by the first iteration). -/
def maxZSeg : List Node → ℚ
  | [] => 0
  | n :: rest => maxZFrom n.z rest

/-- The sliding-window search of `packing.ts` lines 265–274: starting from the
node at `startX`, find the least `j` with `nodes[j].x - startX ≥ bw` and
return the nodes at indices `i .. j-1` (the segment under the footprint), or
`none` when the end of the node list is reached with span still `< bw`. -/
def spanSeg (startX bw : ℚ) : List Node → Option (List Node)
  | [] => none
  | [_] => none
  | n0 :: n1 :: rest =>
    if bw ≤ n1.x - startX then some [n0]
    else (spanSeg startX bw (n1 :: rest)).map (fun seg => n0 :: seg)

/-- The data of one committed placement found by the gap scan: the candidate's
box index, orientation and score, the gap parameters passed to
`findBestBoxForGap`, and the anchor `(placeX, placeZ)`. -/
structure Placement where
  index : Nat
  orient : ℚ × ℚ × ℚ
  score : ℚ
  gapW : ℚ
  gapD : ℚ
  placeX : ℚ
  placeZ : ℚ
deriving DecidableEq, Repr

/-- The gap scan of `packing.ts` lines 233–309 (one pass of the `for` loop
over node indices `i`, up to and including the first commit): for each gap
`[nodes[i].x, nodes[i+1].x)` compute the gap width, the maximal `z` over
`nodes[i..length-2]` (note: the source scans to the end of the profile, not
just under the gap) and the available depth; query `findBestBoxForGap`; on a
candidate, re-run the span search for the candidate's width and re-check the
depth bound, skipping to the next gap on failure (`continue`); the first gap
that passes yields the commit. -/
def scanGaps (boxes : List Box) (palletD layerHeight : ℚ) : List Node → Option Placement
  | [] => none
  | [_] => none
  | n0 :: n1 :: rest =>
    let next := scanGaps boxes palletD layerHeight (n1 :: rest)
    let gapX := n0.x
    let gapWidthTotal := n1.x - gapX
    if gapWidthTotal ≤ 0 then next
    else
      let maxZInSpan := maxZFrom n0.z ((n1 :: rest).dropLast)
      let gapDepthAvailable := palletD - maxZInSpan
      if gapDepthAvailable ≤ 0 then next
      else
        match findBestBoxForGap boxes gapWidthTotal gapDepthAvailable layerHeight layerHeight with
        | none => next
        | some c =>
          match spanSeg gapX c.orient.1 (n0 :: n1 :: rest) with
          | none => next
          | some seg =>
            let exactMaxZ := maxZSeg seg
            if palletD < exactMaxZ + c.orient.2.2 then next
            else some ⟨c.index, c.orient, c.score, gapWidthTotal, gapDepthAvailable, gapX, exactMaxZ⟩

/-- Decrement the quantity of the box at the given index
(`boxes[cand.index].qty -= 1`, `packing.ts` line 304). -/
def decQty : List Box → Nat → List Box
  | [], _ => []
  | b :: rest, 0 => { b with qty := b.qty - 1 } :: rest
  | b :: rest, i + 1 => b :: decQty rest i

/-- One iteration of the `while (true)` loop of `packLayerSkyline`
(`packing.ts` lines 226–312) up to and including the single commit it makes:
scan the gaps; on a commit, update the skyline over `[placeX, placeX + bw)` to
`exactMaxZ + bd`, record the `PlacedBox` (with `qty` 1 and `y = yBase`) and
decrement the chosen box type's quantity.  Returns `none` when the scan places
nothing, ending the layer. -/
def stepPlace (pallet : Pallet) (layerHeight yBase : ℚ) (boxes : List Box)
    (nodes : List Node) : Option (PlacedBox × List Box × List Node) :=
  match scanGaps boxes pallet.d layerHeight nodes with
  | none => none
  | some pl =>
    match boxes[pl.index]? with
    | none => none
    | some b =>
      let nodes' := skylineUpdate nodes pl.placeX pl.orient.1 (pl.placeZ + pl.orient.2.2)
      let p : PlacedBox :=
        ⟨b.id, pl.orient.1, pl.orient.2.1, pl.orient.2.2, 1, pl.placeX, yBase, pl.placeZ, pl.orient⟩
      some (p, decQty boxes pl.index, nodes')

/-- The `while (true)` loop of `packLayerSkyline`, as fuel recursion: every
iteration either commits one unit (consuming one unit of quantity) or stops.
The placements are accumulated in commit order. -/
def packLayerLoop (pallet : Pallet) (layerHeight yBase : ℚ) :
    Nat → List Box → List Node → List PlacedBox × List Box
  | 0, boxes, _ => ([], boxes)
  | fuel + 1, boxes, nodes =>
    match stepPlace pallet layerHeight yBase boxes nodes with
    | none => ([], boxes)
    | some (p, boxes', nodes') =>
      let r := packLayerLoop pallet layerHeight yBase fuel boxes' nodes'
      (p :: r.1, r.2)

/-- Total remaining quantity of a catalog, as a natural number; used as loop
fuel (each commit decrements a positive quantity). -/
def totalQtyNat (boxes : List Box) : Nat :=
  (boxes.map (fun b => b.qty.toNat)).sum

/-- Result of packing one layer: the placements and the updated catalog. -/
structure LayerResult where
  placed : List PlacedBox
  boxesOut : List Box
deriving DecidableEq, Repr

/-- `packLayerSkyline` (`packing.ts` lines 211–315): pack one layer starting
from the two-node profile `[⟨0, 0⟩, ⟨pallet.w, 0⟩]`.  The source copies the
incoming catalog and mutates only the copy; here the function is pure. -/
def packLayerSkyline (boxesIn : List Box) (pallet : Pallet) (layerHeight yBase : ℚ) :
    LayerResult :=
  let r := packLayerLoop pallet layerHeight yBase (totalQtyNat boxesIn + 1) boxesIn
    [⟨0, 0⟩, ⟨pallet.w, 0⟩]
  ⟨r.1, r.2⟩

/-! ### The pallet packing loop (`packing.ts` lines 321–378) -/

/-- `Math.max(...placed.map(p => p.h))` over a non-empty placement list
(`packing.ts` line 355); 0 for the empty list, which the source never
evaluates (it breaks first). -/
def maxPlacedOf : List PlacedBox → ℚ
  | [] => 0
  | p :: rest => rest.foldl (fun a q => max a q.h) p.h

/-- The `while (currentY < pallet.h)` stacking loop of `packPalletWithLayers`
(`packing.ts` lines 339–363), as fuel recursion over the remaining quantity:
clip the layer height to the remaining headroom (stopping when the clipped
height is ≤ 0), pack one layer, stop when it placed nothing, otherwise advance
the cursor by `max(currentLayerHeight, maxPlacedH)` and continue with the
clipped height (the source mutates `currentLayerHeight` in place). -/
def packLayers (pallet : Pallet) :
    Nat → List Box → ℚ → ℚ → List PlacedBox
  | 0, _, _, _ => []
  | fuel + 1, boxes, currentY, layerHeight =>
    if currentY < pallet.h then
      let lh2 := if pallet.h < currentY + layerHeight then pallet.h - currentY else layerHeight
      if pallet.h < currentY + layerHeight ∧ lh2 ≤ 0 then []
      else
        let r := packLayerSkyline boxes pallet lh2 currentY
        if r.placed = [] then []
        else
          r.placed ++
            packLayers pallet fuel r.boxesOut (currentY + max lh2 (maxPlacedOf r.placed)) lh2
    else []

/-- Sum of the volumes of the placed boxes
(`placedAll.reduce((s, p) => s + p.w * p.h * p.d, 0)`, `packing.ts` line 366). -/
def usedVolume (placed : List PlacedBox) : ℚ :=
  (placed.map (fun p => p.w * p.h * p.d)).sum

/-- `packPalletWithLayers` (`packing.ts` lines 321–378): try every layer
candidate in order, each starting from the full catalog at height 0, and keep
the attempt with strictly greatest utilization (`util > bestUtil`), starting
from the empty result with utilization 0. -/
def packPalletWithLayers (boxes : List Box) (pallet : Pallet)
    (layerCandidates : List LayerCandidate) : PackResult :=
  let totalVolume := pallet.w * pallet.h * pallet.d
  layerCandidates.foldl
    (fun best candidate =>
      let placedAll := packLayers pallet (totalQtyNat boxes + 1) boxes 0 candidate.height
      let util := usedVolume placedAll / totalVolume
      if best.utilization < util then ⟨placedAll, util⟩ else best)
    ⟨[], 0⟩

/-! ### Layer height candidates (`layers.ts`) -/

/-- All box dimension values in catalog order, three per box (the nested
`for (const box of boxes) for (const dim of [box.w, box.h, box.d])`
enumeration of `layers.ts` lines 67–69, flattened). -/
def boxDims (boxes : List Box) : List ℚ :=
  boxes.flatMap (fun b => [b.w, b.h, b.d])

/-- The score of a candidate height (`layers.ts` lines 71–75): the sum over
all box types of that type's minimum absolute difference between its three
dimensions and the height. -/
def scoreForHeight (boxes : List Box) (dim : ℚ) : ℚ :=
  (boxes.map (fun b => min (min |b.w - dim| |b.h - dim|) |b.d - dim|)).sum

/-- `Map.set` on an insertion-ordered association list: update the value in
place when the key is present (keeping its position), otherwise append the new
entry at the end — the ECMAScript `Map` semantics used by `layers.ts`. -/
def mapSet (m : List (ℚ × ℚ)) (k v : ℚ) : List (ℚ × ℚ) :=
  match m with
  | [] => [(k, v)]
  | (k', v') :: rest => if k' = k then (k, v) :: rest else (k', v') :: mapSet rest k v

/-- The `heights` map built by `layers.ts` lines 65–79: for every box
dimension not exceeding the pallet height, in enumeration order, set its score
in the insertion-ordered map. -/
def collectHeights (boxes : List Box) (palletH : ℚ) : List (ℚ × ℚ) :=
  (boxDims boxes).foldl
    (fun m dim => if dim ≤ palletH then mapSet m dim (scoreForHeight boxes dim) else m) []

/-- The comparison used to sort layer candidates
(`.sort((a, b) => a.evalScore - b.evalScore)`, `layers.ts` line 83). -/
def candLE (a b : LayerCandidate) : Prop := a.evalScore ≤ b.evalScore

instance : DecidableRel candLE := fun x y => inferInstanceAs (Decidable (x.evalScore ≤ y.evalScore))

instance : IsTotal LayerCandidate candLE := ⟨fun x y => le_total x.evalScore y.evalScore⟩

instance : IsTrans LayerCandidate candLE := ⟨fun _ _ _ => le_trans⟩

/-- `buildLayerCandidates` (`layers.ts` lines 64–84): the collected
(height, score) entries, sorted ascending by score.  ECMAScript
`Array.prototype.sort` is a stable sort; `List.insertionSort` with the `≤`
comparison is stable in the same sense (earlier elements stay before
equal-score later ones). -/
def buildLayerCandidates (boxes : List Box) (pallet : Pallet) : List LayerCandidate :=
  List.insertionSort candLE
    ((collectHeights boxes pallet.h).map (fun e => ⟨e.1, e.2⟩))

/-! ### Pallet orientations (`utils.ts`) -/

/-- The canonical enumeration order of the six permutations of the pallet's
dimensions (`utils.ts` lines 5–12). -/
def palletDims (p : Pallet) : List (ℚ × ℚ × ℚ) :=
  [(p.w, p.h, p.d), (p.w, p.d, p.h), (p.h, p.w, p.d),
   (p.h, p.d, p.w), (p.d, p.w, p.h), (p.d, p.h, p.w)]

/-- The `seen`-set filter of `utils.ts` lines 14–19: keep a triple exactly
when it was not seen before, accumulating seen triples.  (The source keys the
set by the comma-joined string of the three numbers, which is injective on
number triples, so it is modelled as membership of the triple itself.) -/
def dedupSeen (seen : List (ℚ × ℚ × ℚ)) : List (ℚ × ℚ × ℚ) → List (ℚ × ℚ × ℚ)
  | [] => []
  | t :: rest => if t ∈ seen then dedupSeen seen rest else t :: dedupSeen (t :: seen) rest

/-- `getPalletOrientations` (`utils.ts` lines 3–21): the deduplicated
permutations of the pallet dimensions in first-seen order, repackaged as
`Pallet` values. -/
def getPalletOrientations (p : Pallet) : List Pallet :=
  (dedupSeen [] (palletDims p)).map (fun t => ⟨t.1, t.2.1, t.2.2⟩)

/-- Check that the `x`-coordinates of a node list are strictly increasing
(skyline invariant 1, §3 of the specification). -/
def nodesStrictX : List Node → Bool
  | [] => true
  | [_] => true
  | a :: b :: rest => decide (a.x < b.x) && nodesStrictX (b :: rest)

/-- Check that no two adjacent nodes share the same `z`
(skyline invariant 2, §3 of the specification). -/
def nodesNoAdjZ : List Node → Bool
  | [] => true
  | [_] => true
  | a :: b :: rest => decide (a.z ≠ b.z) && nodesNoAdjZ (b :: rest)

/-- Number of placements of a given box type identifier in a placement list
(used to state the conservation property). -/
def countId (placed : List PlacedBox) (i : Nat) : Nat :=
  (placed.filter (fun p => p.id = i)).length

/-! ### Definitions following the specification's words (for comparison with
the code; each is clearly named `spec...` or `claimed...`) -/

/-- First-occurrence deduplication as the specification words it: "return the
deduplicated set of axis-aligned permutations, preserving first-seen order".
Stated independently of the code's `seen`-set loop. -/
def specDedupFirst : List (ℚ × ℚ × ℚ) → List (ℚ × ℚ × ℚ)
  | [] => []
  | t :: rest => t :: specDedupFirst (rest.filter (fun u => u ≠ t))
termination_by l => l.length
decreasing_by
  simp only [List.length_cons]
  exact Nat.lt_succ_of_le (List.length_filter_le _ _)

/-- The score formula exactly as claim C3 words it: "p + 100·|width − gap
width| + |depth − gap depth|, where the penalty p equals |height − target|
when the orientation's height fits within the target layer height and 100000 +
|height − target| when it exceeds it". -/
def claimedScoreC3 (gapWidth gapDepth layerHeight maxAvailableY : ℚ) (o : ℚ × ℚ × ℚ) : ℚ :=
  let p := if o.2.1 ≤ maxAvailableY then |o.2.1 - layerHeight| else 100000 + |o.2.1 - layerHeight|
  p + 100 * |o.1 - gapWidth| + |o.2.2 - gapDepth|

/-- The amended score formula (claim C3 corrected): the same penalty `p`, but
the composite is `10000·p + 100·|width − gap width| + |depth − gap depth|`. -/
def specScoreC3 (gapWidth gapDepth layerHeight maxAvailableY : ℚ) (o : ℚ × ℚ × ℚ) : ℚ :=
  let p := if o.2.1 ≤ maxAvailableY then |o.2.1 - layerHeight| else 100000 + |o.2.1 - layerHeight|
  10000 * p + 100 * |o.1 - gapWidth| + |o.2.2 - gapDepth|

/-! ## Lemmas about best-box selection -/

/-- One `pickOrient` step either keeps the running best or installs the
current orientation with its score, provided it fits the gap. -/
theorem pickOrient_sound (gw gd lh my : ℚ) (i : Nat) (best : Option Cand)
    (o : ℚ × ℚ × ℚ) (c : Cand) (h : pickOrient gw gd lh my i best o = some c) :
    best = some c ∨
      (c.index = i ∧ c.orient = o ∧ c.score = scoreOf gw gd lh my o ∧
        o.1 ≤ gw ∧ o.2.2 ≤ gd) := by
  unfold pickOrient at h
  split at h
  · exact Or.inl h
  · split at h
    · exact Or.inl h
    · rename_i hw hd
      match best with
      | none =>
        simp only [Option.some.injEq] at h
        exact Or.inr ⟨by rw [← h], by rw [← h], by rw [← h], le_of_not_lt hw, le_of_not_lt hd⟩
      | some c0 =>
        simp only at h
        split at h
        · simp only [Option.some.injEq] at h
          exact Or.inr ⟨by rw [← h], by rw [← h], by rw [← h], le_of_not_lt hw, le_of_not_lt hd⟩
        · exact Or.inl h

/-- Folding `pickOrient` over a list of orientations either keeps the running
best or returns a fitting orientation from the list with its score. -/
theorem foldl_pickOrient_sound (gw gd lh my : ℚ) (i : Nat) :
    ∀ (os : List (ℚ × ℚ × ℚ)) (best : Option Cand) (c : Cand),
      os.foldl (pickOrient gw gd lh my i) best = some c →
      best = some c ∨
        (c.index = i ∧ c.orient ∈ os ∧ c.score = scoreOf gw gd lh my c.orient ∧
          c.orient.1 ≤ gw ∧ c.orient.2.2 ≤ gd)
  | [], _, c, h => Or.inl h
  | o :: os, best, c, h => by
    rcases foldl_pickOrient_sound gw gd lh my i os _ c h with h1 | h1
    · rcases pickOrient_sound gw gd lh my i best o c h1 with h2 | h2
      · exact Or.inl h2
      · refine Or.inr ⟨h2.1, ?_, ?_, ?_, ?_⟩
        · rw [h2.2.1]; exact List.mem_cons_self o os
        · rw [h2.2.1]; exact h2.2.2.1
        · rw [h2.2.1]; exact h2.2.2.2.1
        · rw [h2.2.1]; exact h2.2.2.2.2
    · exact Or.inr ⟨h1.1, List.mem_cons_of_mem o h1.2.1, h1.2.2⟩

/-- The outer loop of the selection either keeps the running best or returns
a candidate whose index points at a box with positive remaining quantity, with
one of that box's orientations, correctly scored and fitting the gap. -/
theorem findBestAux_sound (gw gd lh my : ℚ) :
    ∀ (boxes : List Box) (i : Nat) (best : Option Cand) (c : Cand),
      findBestAux gw gd lh my i boxes best = some c →
      best = some c ∨
        ∃ j b, boxes[j]? = some b ∧ c.index = i + j ∧ 0 < b.qty ∧
          c.orient ∈ orientsOf b ∧ c.score = scoreOf gw gd lh my c.orient ∧
          c.orient.1 ≤ gw ∧ c.orient.2.2 ≤ gd
  | [], _, _, _, h => Or.inl h
  | b :: rest, i, best, c, h => by
    unfold findBestAux at h
    rcases findBestAux_sound gw gd lh my rest (i + 1) _ c h with h1 | h1
    · split at h1
      · exact Or.inl h1
      · rename_i hq
        rcases foldl_pickOrient_sound gw gd lh my i _ _ c h1 with h2 | h2
        · exact Or.inl h2
        · exact Or.inr ⟨0, b, by simp, by simpa using h2.1, lt_of_not_le hq, h2.2⟩
    · obtain ⟨j, b', hj, hidx, hrest⟩ := h1
      refine Or.inr ⟨j + 1, b', ?_, ?_, hrest⟩
      · simpa using hj
      · omega

/-- `findBestBoxForGap` only returns candidates drawn from a box with
positive remaining quantity, with one of its orientations, correctly scored
and fitting the gap. -/
theorem findBestBoxForGap_sound (boxes : List Box) (gw gd lh my : ℚ) (c : Cand)
    (h : findBestBoxForGap boxes gw gd lh my = some c) :
    ∃ b, boxes[c.index]? = some b ∧ 0 < b.qty ∧ c.orient ∈ orientsOf b ∧
      c.score = scoreOf gw gd lh my c.orient ∧ c.orient.1 ≤ gw ∧ c.orient.2.2 ≤ gd := by
  rcases findBestAux_sound gw gd lh my boxes 0 none c h with h1 | h1
  · exact absurd h1 (by simp)
  · obtain ⟨j, b, hj, hidx, hrest⟩ := h1
    refine ⟨b, ?_, hrest⟩
    rwa [hidx, Nat.zero_add]

/-- A `pickOrient` step on a fitting orientation always yields a candidate at
least as good as that orientation's score. -/
theorem pickOrient_fits (gw gd lh my : ℚ) (i : Nat) (best : Option Cand)
    (o : ℚ × ℚ × ℚ) (hw : o.1 ≤ gw) (hd : o.2.2 ≤ gd) :
    ∃ c, pickOrient gw gd lh my i best o = some c ∧
      c.score ≤ scoreOf gw gd lh my o := by
  unfold pickOrient
  rw [if_neg (not_lt.2 hw), if_neg (not_lt.2 hd)]
  match best with
  | none => exact ⟨⟨i, o, scoreOf gw gd lh my o⟩, rfl, le_refl _⟩
  | some c0 =>
    by_cases hlt : scoreOf gw gd lh my o < c0.score
    · refine ⟨⟨i, o, scoreOf gw gd lh my o⟩, ?_, le_refl _⟩
      simp only [if_pos hlt]
    · refine ⟨c0, ?_, le_of_not_lt hlt⟩
      simp only [if_neg hlt]

/-- A `pickOrient` step never increases the running best score. -/
theorem pickOrient_mono (gw gd lh my : ℚ) (i : Nat) (c0 : Cand) (o : ℚ × ℚ × ℚ) :
    ∃ c, pickOrient gw gd lh my i (some c0) o = some c ∧ c.score ≤ c0.score := by
  unfold pickOrient
  split
  · exact ⟨c0, rfl, le_refl _⟩
  · split
    · exact ⟨c0, rfl, le_refl _⟩
    · by_cases hlt : scoreOf gw gd lh my o < c0.score
      · refine ⟨⟨i, o, scoreOf gw gd lh my o⟩, ?_, le_of_lt hlt⟩
        simp only [if_pos hlt]
      · refine ⟨c0, ?_, le_refl _⟩
        simp only [if_neg hlt]

/-- Folding `pickOrient` never increases the running best score. -/
theorem foldl_pickOrient_mono (gw gd lh my : ℚ) (i : Nat) :
    ∀ (os : List (ℚ × ℚ × ℚ)) (c0 : Cand),
      ∃ c, os.foldl (pickOrient gw gd lh my i) (some c0) = some c ∧ c.score ≤ c0.score
  | [], c0 => ⟨c0, rfl, le_refl _⟩
  | o :: os, c0 => by
    obtain ⟨c1, hc1, hle1⟩ := pickOrient_mono gw gd lh my i c0 o
    obtain ⟨c, hc, hle⟩ := foldl_pickOrient_mono gw gd lh my i os c1
    exact ⟨c, by rw [List.foldl_cons, hc1]; exact hc, le_trans hle hle1⟩

/-- Folding `pickOrient` over a list containing a fitting orientation yields a
candidate at least as good as that orientation's score. -/
theorem foldl_pickOrient_complete (gw gd lh my : ℚ) (i : Nat) :
    ∀ (os : List (ℚ × ℚ × ℚ)) (best : Option Cand) (o : ℚ × ℚ × ℚ),
      o ∈ os → o.1 ≤ gw → o.2.2 ≤ gd →
      ∃ c, os.foldl (pickOrient gw gd lh my i) best = some c ∧
        c.score ≤ scoreOf gw gd lh my o
  | [], _, o, ho, _, _ => absurd ho (List.not_mem_nil o)
  | o' :: os, best, o, ho, hw, hd => by
    rcases List.mem_cons.1 ho with rfl | ho'
    · obtain ⟨c1, hc1, hle1⟩ := pickOrient_fits gw gd lh my i best o hw hd
      obtain ⟨c, hc, hle⟩ := foldl_pickOrient_mono gw gd lh my i os c1
      exact ⟨c, by rw [List.foldl_cons, hc1]; exact hc, le_trans hle hle1⟩
    · obtain ⟨c, hc, hle⟩ :=
        foldl_pickOrient_complete gw gd lh my i os (pickOrient gw gd lh my i best o') o ho' hw hd
      exact ⟨c, by rw [List.foldl_cons]; exact hc, hle⟩

/-- The outer selection loop never increases the running best score. -/
theorem findBestAux_mono (gw gd lh my : ℚ) :
    ∀ (boxes : List Box) (i : Nat) (c0 : Cand),
      ∃ c, findBestAux gw gd lh my i boxes (some c0) = some c ∧ c.score ≤ c0.score
  | [], _, c0 => ⟨c0, rfl, le_refl _⟩
  | b :: rest, i, c0 => by
    unfold findBestAux
    by_cases hq : b.qty ≤ 0
    · obtain ⟨c, hc, hle⟩ := findBestAux_mono gw gd lh my rest (i + 1) c0
      exact ⟨c, by rw [if_pos hq]; exact hc, hle⟩
    · obtain ⟨c1, hc1, hle1⟩ := foldl_pickOrient_mono gw gd lh my i (orientsOf b) c0
      obtain ⟨c, hc, hle⟩ := findBestAux_mono gw gd lh my rest (i + 1) c1
      exact ⟨c, by rw [if_neg hq, hc1]; exact hc, le_trans hle hle1⟩

/-- If some box with positive quantity has a fitting orientation, the outer
selection loop returns a candidate at least as good as that orientation. -/
theorem findBestAux_complete (gw gd lh my : ℚ) :
    ∀ (boxes : List Box) (i : Nat) (best : Option Cand) (j : Nat) (b : Box)
      (o : ℚ × ℚ × ℚ), boxes[j]? = some b → 0 < b.qty → o ∈ orientsOf b →
      o.1 ≤ gw → o.2.2 ≤ gd →
      ∃ c, findBestAux gw gd lh my i boxes best = some c ∧
        c.score ≤ scoreOf gw gd lh my o
  | [], _, _, j, _, _, hj, _, _, _, _ => by simp at hj
  | b' :: rest, i, best, j, b, o, hj, hq, ho, hw, hd => by
    unfold findBestAux
    match j with
    | 0 =>
      simp only [List.getElem?_cons_zero, Option.some.injEq] at hj
      subst hj
      rw [if_neg (not_le.2 hq)]
      obtain ⟨c1, hc1, hle1⟩ := foldl_pickOrient_complete gw gd lh my i (orientsOf b') best o ho hw hd
      obtain ⟨c, hc, hle⟩ := findBestAux_mono gw gd lh my rest (i + 1) c1
      exact ⟨c, by rw [hc1]; exact hc, le_trans hle hle1⟩
    | j + 1 =>
      simp only [List.getElem?_cons_succ] at hj
      exact findBestAux_complete gw gd lh my rest (i + 1) _ j b o hj hq ho hw hd

/-- Whenever a box with positive remaining quantity has an orientation fitting
the gap, `findBestBoxForGap` returns a candidate, and that candidate's score
is minimal: no fitting orientation of any available box scores lower. -/
theorem findBestBoxForGap_min (boxes : List Box) (gw gd lh my : ℚ) (j : Nat)
    (b : Box) (o : ℚ × ℚ × ℚ) (hj : boxes[j]? = some b) (hq : 0 < b.qty)
    (ho : o ∈ orientsOf b) (hw : o.1 ≤ gw) (hd : o.2.2 ≤ gd) :
    ∃ c, findBestBoxForGap boxes gw gd lh my = some c ∧
      c.score ≤ scoreOf gw gd lh my o :=
  findBestAux_complete gw gd lh my boxes 0 none j b o hj hq ho hw hd

/-! ## Lemmas about the gap scan -/

/-- A successful span search certifies its width: some node of the scanned
list lies at least `bw` to the right of `startX`. -/
theorem spanSeg_bound (startX bw : ℚ) :
    ∀ (l : List Node) (seg : List Node), spanSeg startX bw l = some seg →
      ∃ n, n ∈ l ∧ startX + bw ≤ n.x
  | [], _, h => by simp [spanSeg] at h
  | [n], _, h => by simp [spanSeg] at h
  | n0 :: n1 :: rest, seg, h => by
    unfold spanSeg at h
    split at h
    · rename_i hsp
      exact ⟨n1, List.mem_cons_of_mem n0 (List.mem_cons_self n1 rest), by linarith⟩
    · obtain ⟨seg', hseg', -⟩ := Option.map_eq_some'.1 h
      obtain ⟨n, hn, hle⟩ := spanSeg_bound startX bw (n1 :: rest) seg' hseg'
      exact ⟨n, List.mem_cons_of_mem n0 hn, hle⟩

/-- Every node of a successful span segment comes from the scanned list. -/
theorem spanSeg_subset (startX bw : ℚ) :
    ∀ (l : List Node) (seg : List Node), spanSeg startX bw l = some seg →
      ∀ n ∈ seg, n ∈ l
  | [], _, h => by simp [spanSeg] at h
  | [n], _, h => by simp [spanSeg] at h
  | n0 :: n1 :: rest, seg, h => by
    unfold spanSeg at h
    split at h
    · simp only [Option.some.injEq] at h
      subst h
      intro n hn
      simp only [List.mem_singleton] at hn
      exact hn ▸ List.mem_cons_self n0 (n1 :: rest)
    · obtain ⟨seg', hseg', rfl⟩ := Option.map_eq_some'.1 h
      intro n hn
      rcases List.mem_cons.1 hn with rfl | hn'
      · exact List.mem_cons_self n (n1 :: rest)
      · exact List.mem_cons_of_mem n0 (spanSeg_subset startX bw (n1 :: rest) seg' hseg' n hn')

/-- The seed of a max fold is a lower bound of its result. -/
theorem le_maxZFrom (init : ℚ) : ∀ (l : List Node), init ≤ maxZFrom init l
  | [] => le_refl _
  | n :: rest =>
    le_trans (le_max_left init n.z) (le_maxZFrom (max init n.z) rest)

/-- Every scanned node's `z` is a lower bound of a max fold that saw it. -/
theorem maxZFrom_mono (init init' : ℚ) (h : init ≤ init') :
    ∀ (l : List Node), maxZFrom init l ≤ maxZFrom init' l
  | [] => h
  | n :: rest => maxZFrom_mono (max init n.z) (max init' n.z)
      (max_le_max h (le_refl n.z)) rest

/-- The max of a segment of nodes with non-negative depths is non-negative. -/
theorem maxZSeg_nonneg (seg : List Node) (h : ∀ n ∈ seg, 0 ≤ n.z) :
    0 ≤ maxZSeg seg := by
  match seg with
  | [] => exact le_refl 0
  | n :: rest =>
    exact le_trans (h n (List.mem_cons_self n rest)) (le_maxZFrom n.z rest)

/-- Soundness of the gap scan: a returned placement commits a box with
positive remaining quantity in one of its orientations, scored by `scoreOf`
against the gap parameters it records; its anchor `x` is the `x` of a scanned
node; some scanned node bounds `placeX + bw`; the depth bound
`placeZ + bd ≤ palletD` was checked; and `placeZ` is non-negative whenever all
scanned depths are. -/
theorem scanGaps_sound (boxes : List Box) (D lh : ℚ) :
    ∀ (l : List Node) (pl : Placement), scanGaps boxes D lh l = some pl →
      (∃ b, boxes[pl.index]? = some b ∧ 0 < b.qty ∧ pl.orient ∈ orientsOf b ∧
        pl.score = scoreOf pl.gapW pl.gapD lh lh pl.orient) ∧
      (∃ n, n ∈ l ∧ pl.placeX = n.x) ∧
      (∃ n, n ∈ l ∧ pl.placeX + pl.orient.1 ≤ n.x) ∧
      pl.placeZ + pl.orient.2.2 ≤ D ∧
      ((∀ n ∈ l, 0 ≤ n.z) → 0 ≤ pl.placeZ)
  | [], pl, h => by simp [scanGaps] at h
  | [n], pl, h => by simp [scanGaps] at h
  | n0 :: n1 :: rest, pl, h => by
    have lift :
        ((∃ b, boxes[pl.index]? = some b ∧ 0 < b.qty ∧ pl.orient ∈ orientsOf b ∧
            pl.score = scoreOf pl.gapW pl.gapD lh lh pl.orient) ∧
          (∃ n, n ∈ n1 :: rest ∧ pl.placeX = n.x) ∧
          (∃ n, n ∈ n1 :: rest ∧ pl.placeX + pl.orient.1 ≤ n.x) ∧
          pl.placeZ + pl.orient.2.2 ≤ D ∧
          ((∀ n ∈ n1 :: rest, 0 ≤ n.z) → 0 ≤ pl.placeZ)) →
        ((∃ b, boxes[pl.index]? = some b ∧ 0 < b.qty ∧ pl.orient ∈ orientsOf b ∧
            pl.score = scoreOf pl.gapW pl.gapD lh lh pl.orient) ∧
          (∃ n, n ∈ n0 :: n1 :: rest ∧ pl.placeX = n.x) ∧
          (∃ n, n ∈ n0 :: n1 :: rest ∧ pl.placeX + pl.orient.1 ≤ n.x) ∧
          pl.placeZ + pl.orient.2.2 ≤ D ∧
          ((∀ n ∈ n0 :: n1 :: rest, 0 ≤ n.z) → 0 ≤ pl.placeZ)) := by
      rintro ⟨h1, ⟨n, hn, h2⟩, ⟨m, hm, h3⟩, h4, h5⟩
      exact ⟨h1, ⟨n, List.mem_cons_of_mem n0 hn, h2⟩,
        ⟨m, List.mem_cons_of_mem n0 hm, h3⟩, h4,
        fun hz => h5 (fun n hn => hz n (List.mem_cons_of_mem n0 hn))⟩
    unfold scanGaps at h
    dsimp only at h
    split at h
    · exact lift (scanGaps_sound boxes D lh (n1 :: rest) pl h)
    · split at h
      · exact lift (scanGaps_sound boxes D lh (n1 :: rest) pl h)
      · split at h
        · exact lift (scanGaps_sound boxes D lh (n1 :: rest) pl h)
        · rename_i c hc
          split at h
          · exact lift (scanGaps_sound boxes D lh (n1 :: rest) pl h)
          · rename_i seg hseg
            split at h
            · exact lift (scanGaps_sound boxes D lh (n1 :: rest) pl h)
            · rename_i hdepth
              simp only [Option.some.injEq] at h
              subst h
              obtain ⟨b, hb, hq, ho, hs, -, -⟩ := findBestBoxForGap_sound boxes _ _ lh lh c hc
              refine ⟨⟨b, hb, hq, ho, hs⟩,
                ⟨n0, List.mem_cons_self n0 (n1 :: rest), rfl⟩, ?_, le_of_not_lt hdepth, ?_⟩
              · obtain ⟨n, hn, hle⟩ := spanSeg_bound n0.x c.orient.1 (n0 :: n1 :: rest) seg hseg
                exact ⟨n, hn, hle⟩
              · intro hz
                exact maxZSeg_nonneg seg
                  (fun n hn => hz n (spanSeg_subset n0.x c.orient.1 (n0 :: n1 :: rest) seg hseg n hn))

/-- Minimality of the committed candidate within its own gap: whatever gap the
scan commits at, no fitting orientation of any available box scores strictly
lower against that gap's recorded width and depth. -/
theorem scanGaps_min (boxes : List Box) (D lh : ℚ) :
    ∀ (l : List Node) (pl : Placement), scanGaps boxes D lh l = some pl →
      ∀ (k : Nat) (b : Box) (o : ℚ × ℚ × ℚ), boxes[k]? = some b → 0 < b.qty →
        o ∈ orientsOf b → o.1 ≤ pl.gapW → o.2.2 ≤ pl.gapD →
        pl.score ≤ scoreOf pl.gapW pl.gapD lh lh o
  | [], pl, h => by simp [scanGaps] at h
  | [n], pl, h => by simp [scanGaps] at h
  | n0 :: n1 :: rest, pl, h => by
    unfold scanGaps at h
    dsimp only at h
    split at h
    · exact scanGaps_min boxes D lh (n1 :: rest) pl h
    · split at h
      · exact scanGaps_min boxes D lh (n1 :: rest) pl h
      · split at h
        · exact scanGaps_min boxes D lh (n1 :: rest) pl h
        · rename_i c hc
          split at h
          · exact scanGaps_min boxes D lh (n1 :: rest) pl h
          · split at h
            · exact scanGaps_min boxes D lh (n1 :: rest) pl h
            · simp only [Option.some.injEq] at h
              subst h
              intro k b o hk hq ho hw hd
              obtain ⟨c', hc', hle⟩ := findBestBoxForGap_min boxes _ _ lh lh k b o hk hq ho hw hd
              rw [hc] at hc'
              cases hc'
              exact hle

/-! ## Bookkeeping lemmas about quantities -/

/-- Decrementing at index `i` decrements exactly that entry's quantity. -/
theorem decQty_getElem_eq :
    ∀ (boxes : List Box) (i : Nat) (b : Box), boxes[i]? = some b →
      (decQty boxes i)[i]? = some { b with qty := b.qty - 1 }
  | [], i, _, h => by simp at h
  | b' :: rest, 0, b, h => by
    simp only [List.getElem?_cons_zero, Option.some.injEq] at h
    subst h
    simp [decQty]
  | b' :: rest, i + 1, b, h => by
    simp only [List.getElem?_cons_succ] at h
    simpa [decQty] using decQty_getElem_eq rest i b h

/-- Decrementing at index `i` leaves every other entry unchanged. -/
theorem decQty_getElem_ne :
    ∀ (boxes : List Box) (i j : Nat), j ≠ i → (decQty boxes i)[j]? = boxes[j]?
  | [], _, _, _ => by simp [decQty]
  | b' :: rest, 0, 0, h => absurd rfl h
  | b' :: rest, 0, j + 1, _ => by simp [decQty]
  | b' :: rest, i + 1, 0, _ => by simp [decQty]
  | b' :: rest, i + 1, j + 1, h => by
    simpa [decQty] using decQty_getElem_ne rest i j (fun hji => h (by rw [hji]))

/-- Decrementing a quantity does not change the identifier sequence. -/
theorem decQty_map_id :
    ∀ (boxes : List Box) (i : Nat), (decQty boxes i).map Box.id = boxes.map Box.id
  | [], _ => rfl
  | b' :: rest, 0 => rfl
  | b' :: rest, i + 1 => by simp [decQty, decQty_map_id rest i]

/-- Every entry of a decremented catalog shares identifier and dimensions with
an entry of the original catalog. -/
theorem decQty_mem :
    ∀ (boxes : List Box) (i : Nat) (b' : Box), b' ∈ decQty boxes i →
      ∃ b, b ∈ boxes ∧ b'.id = b.id ∧ b'.w = b.w ∧ b'.h = b.h ∧ b'.d = b.d
  | [], _, _, h => absurd h (by simp [decQty])
  | b0 :: rest, 0, b', h => by
    rcases List.mem_cons.1 h with rfl | h'
    · exact ⟨b0, List.mem_cons_self b0 rest, rfl, rfl, rfl, rfl⟩
    · exact ⟨b', List.mem_cons_of_mem b0 h', rfl, rfl, rfl, rfl⟩
  | b0 :: rest, i + 1, b', h => by
    rcases List.mem_cons.1 h with rfl | h'
    · exact ⟨b', List.mem_cons_self b' rest, rfl, rfl, rfl, rfl⟩
    · obtain ⟨b, hb, hrest⟩ := decQty_mem rest i b' h'
      exact ⟨b, List.mem_cons_of_mem b0 hb, hrest⟩

/-- `totalQtyNat` over a cons. -/
theorem totalQtyNat_cons (b : Box) (rest : List Box) :
    totalQtyNat (b :: rest) = b.qty.toNat + totalQtyNat rest := by
  simp [totalQtyNat]

/-- Decrementing a positive quantity decreases the total by exactly one. -/
theorem totalQtyNat_decQty :
    ∀ (boxes : List Box) (i : Nat) (b : Box), boxes[i]? = some b → 0 < b.qty →
      totalQtyNat (decQty boxes i) + 1 = totalQtyNat boxes
  | [], i, _, h, _ => by simp at h
  | b' :: rest, 0, b, h, hq => by
    simp only [List.getElem?_cons_zero, Option.some.injEq] at h
    subst h
    simp only [decQty, totalQtyNat_cons]
    omega
  | b' :: rest, i + 1, b, h, hq => by
    simp only [List.getElem?_cons_succ] at h
    simp only [decQty, totalQtyNat_cons]
    have := totalQtyNat_decQty rest i b h hq
    omega

/-! ## Preservation of skyline bounds under commits -/

/-- `setLastZ` keeps every `x` and only introduces the new `z`. -/
theorem setLastZ_forall (P Q : ℚ → Prop) :
    ∀ (l : List Node) (zNew : ℚ), (∀ n ∈ l, P n.x ∧ Q n.z) → Q zNew →
      ∀ m ∈ setLastZ l zNew, P m.x ∧ Q m.z := by
  intro l
  induction l with
  | nil =>
    intro zNew _ _ m hm
    simp [setLastZ] at hm
  | cons n rest ih =>
    intro zNew hl hz m hm
    cases rest with
    | nil =>
      simp only [setLastZ, List.mem_singleton] at hm
      subst hm
      exact ⟨(hl n (List.mem_singleton.2 rfl)).1, hz⟩
    | cons n' rest' =>
      have heq : setLastZ (n :: n' :: rest') zNew = n :: setLastZ (n' :: rest') zNew := rfl
      rw [heq] at hm
      rcases List.mem_cons.1 hm with rfl | hm'
      · exact hl m (List.mem_cons_self m (n' :: rest'))
      · exact ih zNew (fun u hu => hl u (List.mem_cons_of_mem n hu)) hz m hm'

/-- `setLastZ` of a non-empty list is non-empty. -/
theorem setLastZ_ne_nil :
    ∀ (l : List Node) (zNew : ℚ), l ≠ [] → setLastZ l zNew ≠ []
  | [], _, h => absurd rfl h
  | [n], zNew, _ => by simp [setLastZ]
  | n :: n' :: rest, zNew, _ => by simp [setLastZ]

/-- Every node of a merged profile is a node of the original profile. -/
theorem mergeNodes_subset :
    ∀ (l : List Node) (m : Node), m ∈ mergeNodes l → m ∈ l
  | [], _, hm => absurd hm (by simp [mergeNodes])
  | n :: rest, m, hm => by
    unfold mergeNodes at hm
    cases hrec : mergeNodes rest with
    | nil =>
      rw [hrec] at hm
      dsimp only at hm
      simp only [List.mem_singleton] at hm
      exact hm ▸ List.mem_cons_self n rest
    | cons m0 ms =>
      rw [hrec] at hm
      dsimp only at hm
      by_cases hz : n.z = m0.z
      · rw [if_pos hz] at hm
        exact List.mem_cons_of_mem n (mergeNodes_subset rest m (hrec ▸ hm))
      · rw [if_neg hz] at hm
        rcases List.mem_cons.1 hm with rfl | hm'
        · exact List.mem_cons_self m rest
        · exact List.mem_cons_of_mem n (mergeNodes_subset rest m (hrec ▸ hm'))

/-- Merging a non-empty profile yields a non-empty profile. -/
theorem mergeNodes_ne_nil :
    ∀ (l : List Node), l ≠ [] → mergeNodes l ≠ []
  | [], h => absurd rfl h
  | n :: rest, _ => by
    unfold mergeNodes
    cases hrec : mergeNodes rest with
    | nil => simp
    | cons m0 ms =>
      dsimp only
      by_cases hz : n.z = m0.z
      · rw [if_pos hz]
        simp
      · rw [if_neg hz]
        simp

/-- Splicing and merging keep every coordinate within bounds: given a spliced
prefix `out1` and remainder `rest` whose nodes lie in `[0, W] × [0, ∞)`, a
non-negative `zAfter`, a last node within bounds, and a commit starting at
`0 ≤ x` with non-negative width, the final merged list is non-empty and all
its nodes lie within bounds. -/
theorem out2_preserves (W x bw newTop zAfter : ℚ) (out1 rest : List Node)
    (lastN : Node) (h1ne : out1 ≠ [])
    (h1b : ∀ m ∈ out1, 0 ≤ m.x ∧ m.x ≤ W ∧ 0 ≤ m.z)
    (hrb : ∀ m ∈ rest, 0 ≤ m.x ∧ m.x ≤ W ∧ 0 ≤ m.z)
    (hza : 0 ≤ zAfter) (hlb : 0 ≤ lastN.x ∧ lastN.x ≤ W ∧ 0 ≤ lastN.z)
    (hx0 : 0 ≤ x) (hbw : 0 ≤ bw) :
    mergeNodes
      (if x + bw < lastN.x then
        (if zAfter ≠ newTop then out1 ++ [⟨x + bw, zAfter⟩] else out1) ++ rest
      else out1 ++ [⟨lastN.x, lastN.z⟩]) ≠ [] ∧
    ∀ m ∈ mergeNodes
      (if x + bw < lastN.x then
        (if zAfter ≠ newTop then out1 ++ [⟨x + bw, zAfter⟩] else out1) ++ rest
      else out1 ++ [⟨lastN.x, lastN.z⟩]),
      0 ≤ m.x ∧ m.x ≤ W ∧ 0 ≤ m.z := by
  have hbound :
      ∀ m ∈ (if x + bw < lastN.x then
          (if zAfter ≠ newTop then out1 ++ [⟨x + bw, zAfter⟩] else out1) ++ rest
        else out1 ++ [⟨lastN.x, lastN.z⟩]),
        0 ≤ m.x ∧ m.x ≤ W ∧ 0 ≤ m.z := by
    intro m hm
    split at hm
    · rename_i hlt
      rcases List.mem_append.1 hm with hm1 | hm1
      · split at hm1
        · rcases List.mem_append.1 hm1 with hm2 | hm2
          · exact h1b m hm2
          · simp only [List.mem_singleton] at hm2
            subst hm2
            refine ⟨?_, ?_, hza⟩
            · dsimp only
              linarith
            · dsimp only
              linarith [hlb.2.1]
        · exact h1b m hm1
      · exact hrb m hm1
    · rcases List.mem_append.1 hm with hm1 | hm1
      · exact h1b m hm1
      · simp only [List.mem_singleton] at hm1
        subst hm1
        exact ⟨hlb.1, hlb.2.1, hlb.2.2⟩
  have hnonnil :
      (if x + bw < lastN.x then
          (if zAfter ≠ newTop then out1 ++ [⟨x + bw, zAfter⟩] else out1) ++ rest
        else out1 ++ [⟨lastN.x, lastN.z⟩]) ≠ [] := by
    split
    · intro hnil
      rcases List.append_eq_nil.1 hnil with ⟨h1, -⟩
      split at h1
      · exact h1ne (List.append_eq_nil.1 h1).1
      · exact h1ne h1
    · intro hnil
      exact h1ne (List.append_eq_nil.1 hnil).1
  exact ⟨mergeNodes_ne_nil _ hnonnil,
    fun m hm => hbound m (mergeNodes_subset _ m hm)⟩

/-- A commit keeps the skyline non-empty and all its coordinates within
bounds: every node keeps `0 ≤ x ≤ W` and `0 ≤ z`, provided the committed
interval starts inside `[0, W]`, its width is non-negative and the new top is
non-negative. -/
theorem skylineUpdate_preserves (W : ℚ) (nodes : List Node) (x bw newTop : ℚ)
    (hne : nodes ≠ [])
    (hb : ∀ n ∈ nodes, 0 ≤ n.x ∧ n.x ≤ W ∧ 0 ≤ n.z)
    (hx0 : 0 ≤ x) (hxW : x ≤ W) (hbw : 0 ≤ bw) (ht : 0 ≤ newTop) :
    skylineUpdate nodes x bw newTop ≠ [] ∧
      ∀ m ∈ skylineUpdate nodes x bw newTop, 0 ≤ m.x ∧ m.x ≤ W ∧ 0 ≤ m.z := by
  have hleftb : ∀ n ∈ nodes.takeWhile (fun n => decide (n.x < x)),
      0 ≤ n.x ∧ n.x ≤ W ∧ 0 ≤ n.z :=
    fun n hn => hb n ((List.takeWhile_sublist _).subset hn)
  have hrestb : ∀ n ∈ (nodes.dropWhile (fun n => decide (n.x < x))).dropWhile
      (fun n => decide (n.x ≤ x + bw)), 0 ≤ n.x ∧ n.x ≤ W ∧ 0 ≤ n.z :=
    fun n hn => hb n ((List.dropWhile_sublist _).subset
      ((List.dropWhile_sublist _).subset hn))
  have hzafter : 0 ≤ (((nodes.filter (fun n => decide (n.x ≤ x + bw))).getLast?.map
      Node.z).getD 0) := by
    cases hfl : (nodes.filter (fun n => decide (n.x ≤ x + bw))).getLast? with
    | none => simp
    | some n =>
      have hn : n ∈ nodes := (List.mem_filter.1 (List.mem_of_getLast?_eq_some hfl)).1
      simpa using (hb n hn).2.2
  have hlastmem : (nodes.getLast?.getD ⟨0, 0⟩) ∈ nodes := by
    rw [List.getLast?_eq_getLast nodes hne]
    exact List.getLast_mem hne
  have hlastb := hb _ hlastmem
  unfold skylineUpdate
  dsimp only
  cases hgl : (nodes.takeWhile (fun n => decide (n.x < x))).getLast? with
  | none =>
    dsimp only
    exact out2_preserves W x bw newTop _ _ _ _ (by simp)
      (fun m hm => by
        rcases List.mem_append.1 hm with hm1 | hm1
        · exact hleftb m hm1
        · simp only [List.mem_singleton] at hm1
          subst hm1
          exact ⟨hx0, hxW, ht⟩)
      hrestb hzafter hlastb hx0 hbw
  | some lastKept =>
    dsimp only
    by_cases hxx : lastKept.x ≠ x
    · rw [if_pos hxx]
      exact out2_preserves W x bw newTop _ _ _ _ (by simp)
        (fun m hm => by
          rcases List.mem_append.1 hm with hm1 | hm1
          · exact hleftb m hm1
          · simp only [List.mem_singleton] at hm1
            subst hm1
            exact ⟨hx0, hxW, ht⟩)
        hrestb hzafter hlastb hx0 hbw
    · rw [if_neg hxx]
      have hlne : nodes.takeWhile (fun n => decide (n.x < x)) ≠ [] :=
        fun hnil => by simp [hnil] at hgl
      exact out2_preserves W x bw newTop _ _ _ _
        (setLastZ_ne_nil _ newTop hlne)
        (fun m hm => by
          have := setLastZ_forall (fun u => 0 ≤ u ∧ u ≤ W) (fun v => 0 ≤ v)
            (nodes.takeWhile (fun n => decide (n.x < x))) newTop
            (fun n hn => ⟨⟨(hleftb n hn).1, (hleftb n hn).2.1⟩, (hleftb n hn).2.2⟩)
            ht m hm
          exact ⟨this.1.1, this.1.2, this.2⟩)
        hrestb hzafter hlastb hx0 hbw

/-! ## Lemmas about the layer loop -/

/-- Characterisation of a successful placement step: it is driven by a
successful gap scan, records the scanned box's identifier and orientation
extents, decrements that box's quantity and commits the skyline update. -/
theorem stepPlace_spec (pallet : Pallet) (lh y : ℚ) (boxes : List Box)
    (nodes : List Node) (p : PlacedBox) (boxes' : List Box) (nodes' : List Node)
    (h : stepPlace pallet lh y boxes nodes = some (p, boxes', nodes')) :
    ∃ pl b, scanGaps boxes pallet.d lh nodes = some pl ∧
      boxes[pl.index]? = some b ∧
      p = ⟨b.id, pl.orient.1, pl.orient.2.1, pl.orient.2.2, 1, pl.placeX, y,
        pl.placeZ, pl.orient⟩ ∧
      boxes' = decQty boxes pl.index ∧
      nodes' = skylineUpdate nodes pl.placeX pl.orient.1 (pl.placeZ + pl.orient.2.2) := by
  unfold stepPlace at h
  split at h
  · exact absurd h (by simp)
  · rename_i pl hpl
    split at h
    · exact absurd h (by simp)
    · rename_i b hb
      dsimp only at h
      simp only [Option.some.injEq, Prod.mk.injEq] at h
      exact ⟨pl, b, hpl, hb, h.1.symm, h.2.1.symm, h.2.2.symm⟩

/-- A successful placement step consumes exactly one unit of quantity. -/
theorem stepPlace_qty (pallet : Pallet) (lh y : ℚ) (boxes : List Box)
    (nodes : List Node) (p : PlacedBox) (boxes' : List Box) (nodes' : List Node)
    (h : stepPlace pallet lh y boxes nodes = some (p, boxes', nodes')) :
    totalQtyNat boxes' + 1 = totalQtyNat boxes := by
  obtain ⟨pl, b, hpl, hb, -, hboxes', -⟩ :=
    stepPlace_spec pallet lh y boxes nodes p boxes' nodes' h
  obtain ⟨⟨b0, hb0, hq0, -, -⟩, -⟩ := scanGaps_sound boxes pallet.d lh nodes pl hpl
  rw [hb] at hb0
  cases hb0
  rw [hboxes']
  exact totalQtyNat_decQty boxes pl.index b hb hq0

/-- Quantity accounting for the layer loop: the units removed from the catalog
are exactly the placements made. -/
theorem packLayerLoop_qty (pallet : Pallet) (lh y : ℚ) :
    ∀ (fuel : Nat) (boxes : List Box) (nodes : List Node),
      totalQtyNat (packLayerLoop pallet lh y fuel boxes nodes).2 +
        (packLayerLoop pallet lh y fuel boxes nodes).1.length = totalQtyNat boxes
  | 0, boxes, _ => by simp [packLayerLoop]
  | fuel + 1, boxes, nodes => by
    unfold packLayerLoop
    cases hst : stepPlace pallet lh y boxes nodes with
    | none => simp
    | some r =>
      obtain ⟨p, boxes', nodes'⟩ := r
      dsimp only
      have hq := stepPlace_qty pallet lh y boxes nodes p boxes' nodes' hst
      have ih := packLayerLoop_qty pallet lh y fuel boxes' nodes'
      simp only [List.length_cons]
      omega

/-- Fuel irrelevance for the layer loop: any fuel exceeding the total
remaining quantity yields the same result, so the loop terminates with the
canonical fuel `totalQtyNat + 1`. -/
theorem packLayerLoop_fuel (pallet : Pallet) (lh y : ℚ) :
    ∀ (n f g : Nat) (boxes : List Box) (nodes : List Node),
      totalQtyNat boxes = n → n < f → n < g →
      packLayerLoop pallet lh y f boxes nodes = packLayerLoop pallet lh y g boxes nodes := by
  intro n
  induction n using Nat.strong_induction_on with
  | _ n ih =>
    intro f g boxes nodes hn hf hg
    match f, g with
    | f + 1, g + 1 =>
      unfold packLayerLoop
      cases hst : stepPlace pallet lh y boxes nodes with
      | none => rfl
      | some r =>
        obtain ⟨p, boxes', nodes'⟩ := r
        dsimp only
        have hq := stepPlace_qty pallet lh y boxes nodes p boxes' nodes' hst
        have : packLayerLoop pallet lh y f boxes' nodes' =
            packLayerLoop pallet lh y g boxes' nodes' := by
          refine ih (totalQtyNat boxes') (by omega) f g boxes' nodes' rfl (by omega) (by omega)
        rw [this]

/-- In a catalog with pairwise distinct identifiers, entries at different
positions have different identifiers. -/
theorem nodup_id_ne (boxes : List Box) (hnd : (boxes.map Box.id).Nodup)
    (j k : Nat) (b b' : Box) (hj : boxes[j]? = some b) (hk : boxes[k]? = some b')
    (hjk : j ≠ k) : b.id ≠ b'.id := by
  intro hid
  apply hjk
  have hjm : (boxes.map Box.id)[j]? = some b.id := by
    rw [List.getElem?_map, hj]
    rfl
  have hkm : (boxes.map Box.id)[k]? = some b'.id := by
    rw [List.getElem?_map, hk]
    rfl
  have hlen : j < (boxes.map Box.id).length := by
    by_contra hge
    rw [List.getElem?_eq_none (le_of_not_lt hge)] at hjm
    exact Option.noConfusion hjm
  exact List.getElem?_inj hlen hnd (by rw [hjm, hkm, hid])

/-- Splitting the placement count at a cons cell. -/
theorem countId_cons (p : PlacedBox) (l : List PlacedBox) (i : Nat) :
    countId (p :: l) i = (if p.id = i then 1 else 0) + countId l i := by
  by_cases h : p.id = i <;> simp [countId, List.filter_cons, h, Nat.add_comm]

/-- Conservation for the layer loop: for every index of a catalog with
pairwise distinct identifiers, the entry's initial quantity equals its final
quantity plus the number of placements bearing its identifier; identifiers are
preserved, and a non-negative quantity stays non-negative. -/
theorem packLayerLoop_conservation (pallet : Pallet) (lh y : ℚ) :
    ∀ (fuel : Nat) (boxes : List Box) (nodes : List Node),
      (boxes.map Box.id).Nodup →
      ∀ (j : Nat) (b : Box), boxes[j]? = some b →
        ∃ b', (packLayerLoop pallet lh y fuel boxes nodes).2[j]? = some b' ∧
          b'.id = b.id ∧
          b.qty = b'.qty + (countId (packLayerLoop pallet lh y fuel boxes nodes).1 b.id : Int) ∧
          (0 ≤ b.qty → 0 ≤ b'.qty)
  | 0, boxes, nodes => by
    intro _ j b hj
    exact ⟨b, by simpa [packLayerLoop] using hj, rfl, by simp [packLayerLoop, countId],
      fun h => h⟩
  | fuel + 1, boxes, nodes => by
    intro hnd j b hj
    unfold packLayerLoop
    cases hst : stepPlace pallet lh y boxes nodes with
    | none => exact ⟨b, by simpa using hj, rfl, by simp [countId], fun h => h⟩
    | some r =>
      obtain ⟨p, boxes', nodes'⟩ := r
      dsimp only
      obtain ⟨pl, bidx, hpl, hbidx, hp, hboxes', -⟩ :=
        stepPlace_spec pallet lh y boxes nodes p boxes' nodes' hst
      obtain ⟨⟨b0, hb0, hq0, -, -⟩, -⟩ := scanGaps_sound boxes pallet.d lh nodes pl hpl
      rw [hbidx] at hb0
      cases hb0
      have hnd' : (boxes'.map Box.id).Nodup := by
        rw [hboxes', decQty_map_id]
        exact hnd
      by_cases hji : j = pl.index
      · subst hji
        rw [hbidx] at hj
        cases hj
        have hj' : boxes'[pl.index]? = some ⟨b.id, b.w, b.h, b.d, b.qty - 1⟩ := by
          rw [hboxes']
          exact decQty_getElem_eq boxes pl.index b hbidx
        obtain ⟨b', hb', hid', hcons', hnn'⟩ :=
          packLayerLoop_conservation pallet lh y fuel boxes' nodes' hnd' pl.index _ hj'
        have hcons2 : b.qty - 1 = b'.qty +
            (countId (packLayerLoop pallet lh y fuel boxes' nodes').1 b.id : Int) := hcons'
        have hnn2 : (0 : Int) ≤ b.qty - 1 → 0 ≤ b'.qty := hnn'
        refine ⟨b', hb', hid', ?_, fun _ => hnn2 (by omega)⟩
        have hpid : p.id = b.id := by rw [hp]
        rw [countId_cons, hpid, if_pos rfl]
        push_cast
        omega
      · have hj' : boxes'[j]? = some b := by
          rw [hboxes']
          rw [decQty_getElem_ne boxes pl.index j hji]
          exact hj
        obtain ⟨b', hb', hid', hcons', hnn'⟩ :=
          packLayerLoop_conservation pallet lh y fuel boxes' nodes' hnd' j b hj'
        refine ⟨b', hb', hid', ?_, hnn'⟩
        have hpid : p.id ≠ b.id := by
          rw [hp]
          exact nodup_id_ne boxes hnd pl.index j _ b hbidx hj (fun h => hji h.symm)
        rw [countId_cons, if_neg hpid]
        simpa using hcons'

/-- Every orientation of a box with positive dimensions has positive
components. -/
theorem orient_pos (b : Box) (hw : 0 < b.w) (hh : 0 < b.h) (hd : 0 < b.d)
    (o : ℚ × ℚ × ℚ) (ho : o ∈ orientsOf b) : 0 < o.1 ∧ 0 < o.2.1 ∧ 0 < o.2.2 := by
  simp only [orientsOf, List.mem_cons, List.not_mem_nil, or_false] at ho
  rcases ho with rfl | rfl | rfl | rfl | rfl | rfl <;> exact ⟨by assumption, by assumption, by assumption⟩

/-- Containment for the layer loop: starting from a profile whose nodes lie in
`[0, pallet.w] × [0, ∞)`, with a catalog of positive-dimension boxes, every
placement produced by the loop satisfies `0 ≤ x`, `x + w ≤ pallet.w`,
`0 ≤ z` and `z + d ≤ pallet.d`. -/
theorem packLayerLoop_containment (pallet : Pallet) (lh y : ℚ) :
    ∀ (fuel : Nat) (boxes : List Box) (nodes : List Node),
      nodes ≠ [] →
      (∀ n ∈ nodes, 0 ≤ n.x ∧ n.x ≤ pallet.w ∧ 0 ≤ n.z) →
      (∀ b ∈ boxes, 0 < b.w ∧ 0 < b.h ∧ 0 < b.d) →
      ∀ p ∈ (packLayerLoop pallet lh y fuel boxes nodes).1,
        0 ≤ p.x ∧ p.x + p.w ≤ pallet.w ∧ 0 ≤ p.z ∧ p.z + p.d ≤ pallet.d
  | 0, boxes, nodes => by
    intro _ _ _ p hp
    simp [packLayerLoop] at hp
  | fuel + 1, boxes, nodes => by
    intro hne hnb hbp p hp
    unfold packLayerLoop at hp
    rcases hst : stepPlace pallet lh y boxes nodes with - | ⟨p0, boxes', nodes'⟩
    · rw [hst] at hp
      simp at hp
    · rw [hst] at hp
      dsimp only at hp
      obtain ⟨pl, b, hpl, hbidx, hp0, hboxes', hnodes'⟩ :=
        stepPlace_spec pallet lh y boxes nodes p0 boxes' nodes' hst
      obtain ⟨⟨b0, hb0, -, ho0, -⟩, ⟨n1, hn1, hx1⟩, ⟨n2, hn2, hx2⟩, hzd, hznn⟩ :=
        scanGaps_sound boxes pallet.d lh nodes pl hpl
      rw [hbidx] at hb0
      cases hb0
      have hbmem : b ∈ boxes := List.getElem?_mem hbidx
      have hbpos := hbp b hbmem
      have hopos := orient_pos b hbpos.1 hbpos.2.1 hbpos.2.2 pl.orient ho0
      have hz0 : 0 ≤ pl.placeZ := hznn (fun n hn => (hnb n hn).2.2)
      rcases List.mem_cons.1 hp with rfl | hp'
      · rw [hp0]
        refine ⟨?_, ?_, hz0, hzd⟩
        · dsimp only
          rw [hx1]
          exact (hnb n1 hn1).1
        · dsimp only
          exact le_trans hx2 (hnb n2 hn2).2.1
      · have hpres := skylineUpdate_preserves pallet.w nodes pl.placeX pl.orient.1
          (pl.placeZ + pl.orient.2.2) hne hnb
          (hx1 ▸ (hnb n1 hn1).1) (hx1 ▸ (hnb n1 hn1).2.1)
          (le_of_lt hopos.1) (by linarith [hopos.2.2])
        refine packLayerLoop_containment pallet lh y fuel boxes' nodes'
          (hnodes' ▸ hpres.1) (hnodes' ▸ hpres.2) ?_ p hp'
        intro b' hb'
        obtain ⟨bb, hbb, -, hw', hh', hd'⟩ := decQty_mem boxes pl.index b' (hboxes' ▸ hb')
        have := hbp bb hbb
        exact ⟨hw' ▸ this.1, hh' ▸ this.2.1, hd' ▸ this.2.2⟩

/-! ## Lemmas about the pallet stacking loop -/

/-- Quantity accounting for one packed layer. -/
theorem packLayerSkyline_qty (boxes : List Box) (pallet : Pallet) (lh y : ℚ) :
    totalQtyNat (packLayerSkyline boxes pallet lh y).boxesOut +
      (packLayerSkyline boxes pallet lh y).placed.length = totalQtyNat boxes :=
  packLayerLoop_qty pallet lh y (totalQtyNat boxes + 1) boxes [⟨0, 0⟩, ⟨pallet.w, 0⟩]

/-- Fuel irrelevance for the stacking loop: any fuel exceeding the total
remaining quantity yields the same stack, because every stacked layer places
at least one box. -/
theorem packLayers_fuel (pallet : Pallet) :
    ∀ (n f g : Nat) (boxes : List Box) (y lh : ℚ),
      totalQtyNat boxes = n → n < f → n < g →
      packLayers pallet f boxes y lh = packLayers pallet g boxes y lh := by
  intro n
  induction n using Nat.strong_induction_on with
  | _ n ih =>
    intro f g boxes y lh hn hf hg
    match f, g with
    | f + 1, g + 1 =>
      unfold packLayers
      by_cases hY : y < pallet.h
      · rw [if_pos hY, if_pos hY]
        dsimp only
        by_cases hcl : pallet.h < y + lh ∧ (if pallet.h < y + lh then pallet.h - y else lh) ≤ 0
        · rw [if_pos hcl, if_pos hcl]
        · rw [if_neg hcl, if_neg hcl]
          by_cases hpl : (packLayerSkyline boxes pallet
              (if pallet.h < y + lh then pallet.h - y else lh) y).placed = []
          · rw [if_pos hpl, if_pos hpl]
          · rw [if_neg hpl, if_neg hpl]
            have hqty := packLayerSkyline_qty boxes pallet
              (if pallet.h < y + lh then pallet.h - y else lh) y
            have hlen : 0 < (packLayerSkyline boxes pallet
                (if pallet.h < y + lh then pallet.h - y else lh) y).placed.length :=
              List.length_pos.2 hpl
            rw [ih (totalQtyNat (packLayerSkyline boxes pallet
                (if pallet.h < y + lh then pallet.h - y else lh) y).boxesOut)
              (by omega) f g _ _ _ rfl (by omega) (by omega)]
      · rw [if_neg hY, if_neg hY]

/-- Claim C4 (corrected): in `packPalletWithLayers`, whenever the cursor is
below the pallet height and the (clipped) layer places at least one box, the
stacking cursor advances by `max(clipped nominal layer height, maximum actual
height among the boxes placed in that layer)` — not by the maximum placed
height alone: the stack equals that layer's placements followed by the stack
resumed at the so-advanced cursor. -/
theorem C4_cursor_advance (pallet : Pallet) (fuel : Nat) (boxes : List Box)
    (y lh : ℚ) (hY : y < pallet.h)
    (hne : (packLayerSkyline boxes pallet
      (if pallet.h < y + lh then pallet.h - y else lh) y).placed ≠ []) :
    packLayers pallet (fuel + 1) boxes y lh =
      (packLayerSkyline boxes pallet
        (if pallet.h < y + lh then pallet.h - y else lh) y).placed ++
      packLayers pallet fuel
        (packLayerSkyline boxes pallet
          (if pallet.h < y + lh then pallet.h - y else lh) y).boxesOut
        (y + max (if pallet.h < y + lh then pallet.h - y else lh)
          (maxPlacedOf (packLayerSkyline boxes pallet
            (if pallet.h < y + lh then pallet.h - y else lh) y).placed))
        (if pallet.h < y + lh then pallet.h - y else lh) := by
  conv_lhs => rw [packLayers]
  dsimp only
  rw [if_pos hY]
  have hcl : ¬(pallet.h < y + lh ∧ (if pallet.h < y + lh then pallet.h - y else lh) ≤ 0) := by
    rintro ⟨hgt, hle⟩
    rw [if_pos hgt] at hle
    linarith
  rw [if_neg hcl, if_neg hne]

/-- Claim C5 (corrected): the utilization returned by `packPalletWithLayers`
is always non-negative, for every catalog, pallet and candidate list: the
best-result fold starts from utilization 0 and only ever replaces it by a
strictly larger value.  (The claimed upper bound `utilization ≤ 1` and the
volume bound are refuted by the counterexample below: an orientation taller
than the layer is still committable, so placed volume can exceed the pallet
volume.) -/
theorem C5_utilization_nonneg (boxes : List Box) (pallet : Pallet)
    (layerCandidates : List LayerCandidate) :
    0 ≤ (packPalletWithLayers boxes pallet layerCandidates).utilization := by
  unfold packPalletWithLayers
  dsimp only
  suffices h : ∀ (cands : List LayerCandidate) (acc : PackResult),
      0 ≤ acc.utilization →
      0 ≤ (cands.foldl
        (fun best candidate =>
          if best.utilization <
              usedVolume (packLayers pallet (totalQtyNat boxes + 1) boxes 0 candidate.height) /
                (pallet.w * pallet.h * pallet.d) then
            ⟨packLayers pallet (totalQtyNat boxes + 1) boxes 0 candidate.height,
              usedVolume (packLayers pallet (totalQtyNat boxes + 1) boxes 0 candidate.height) /
                (pallet.w * pallet.h * pallet.d)⟩
          else best) acc).utilization by
    exact h layerCandidates ⟨[], 0⟩ (le_refl 0)
  intro cands
  induction cands with
  | nil => intro acc h; exact h
  | cons c rest ihc =>
    intro acc h
    rw [List.foldl_cons]
    apply ihc
    dsimp only
    split
    · rename_i hlt
      exact le_of_lt (lt_of_le_of_lt h hlt)
    · exact h

/-! ## Lemmas about pallet orientations -/

/-- The `seen`-set filter of the source computes the specification's
first-occurrence deduplication. -/
theorem dedupSeen_eq_spec :
    ∀ (l : List (ℚ × ℚ × ℚ)) (seen : List (ℚ × ℚ × ℚ)),
      dedupSeen seen l = specDedupFirst (l.filter (fun u => u ∉ seen))
  | [], seen => by simp [dedupSeen, specDedupFirst]
  | t :: rest, seen => by
    by_cases ht : t ∈ seen
    · rw [show dedupSeen seen (t :: rest) = dedupSeen seen rest from by
        simp [dedupSeen, ht]]
      rw [dedupSeen_eq_spec rest seen]
      congr 1
      simp [List.filter_cons, ht]
    · rw [show dedupSeen seen (t :: rest) = t :: dedupSeen (t :: seen) rest from by
        simp [dedupSeen, ht]]
      have hfc : (t :: rest).filter (fun u => decide (u ∉ seen)) =
          t :: rest.filter (fun u => decide (u ∉ seen)) := by
        simp [List.filter_cons, ht]
      rw [hfc, specDedupFirst]
      congr 1
      rw [dedupSeen_eq_spec rest (t :: seen), List.filter_filter]
      refine congrArg specDedupFirst (List.filter_congr ?_)
      intro u _
      by_cases hu1 : u = t <;> by_cases hu2 : u ∈ seen <;> simp [hu1, hu2]

/-- The dedup filter never lengthens a list. -/
theorem dedupSeen_length_le :
    ∀ (l : List (ℚ × ℚ × ℚ)) (seen : List (ℚ × ℚ × ℚ)),
      (dedupSeen seen l).length ≤ l.length
  | [], _ => by simp [dedupSeen]
  | t :: rest, seen => by
    by_cases ht : t ∈ seen
    · simp only [dedupSeen, if_pos ht]
      exact le_trans (dedupSeen_length_le rest seen) (Nat.le_succ _)
    · simp only [dedupSeen, if_neg ht, List.length_cons]
      exact Nat.succ_le_succ (dedupSeen_length_le rest (t :: seen))

/-- A dedup of a list with no duplicates and nothing already seen is the list
itself. -/
theorem dedupSeen_of_nodup :
    ∀ (l : List (ℚ × ℚ × ℚ)) (seen : List (ℚ × ℚ × ℚ)),
      l.Nodup → (∀ u ∈ l, u ∉ seen) → dedupSeen seen l = l
  | [], _, _, _ => rfl
  | t :: rest, seen, hnd, hns => by
    have ht : t ∉ seen := hns t (List.mem_cons_self t rest)
    simp only [dedupSeen, if_neg ht]
    congr 1
    refine dedupSeen_of_nodup rest (t :: seen) (List.Nodup.of_cons hnd) ?_
    intro u hu
    simp only [List.mem_cons, not_or]
    exact ⟨fun he => (List.nodup_cons.1 hnd).1 (he ▸ hu), hns u (List.mem_cons_of_mem t hu)⟩

/-- A dedup starting from an empty seen set keeps the head, so it is
non-empty. -/
theorem dedupSeen_nil_length_pos (t : ℚ × ℚ × ℚ) (rest : List (ℚ × ℚ × ℚ)) :
    1 ≤ (dedupSeen [] (t :: rest)).length := by
  simp [dedupSeen]

/-- Claim C8: for every triple of positive dimensions, `getPalletOrientations`
returns the deduplicated permutations in the canonical first-seen order
`(a,b,c), (a,c,b), (b,a,c), (b,c,a), (c,a,b), (c,b,a)` under exact equality of
triples (first conjunct, against the specification-worded deduplication), and
the count of retained orientations is 6 when all three values differ, 3 when
exactly two coincide (in each of the three coincidence patterns), 1 when all
three coincide, and always between 1 and 6. -/
theorem C8_pallet_orientations (a b c : ℚ) (_ha : 0 < a) (_hb : 0 < b) (_hc : 0 < c) :
    getPalletOrientations ⟨a, b, c⟩ =
      (specDedupFirst (palletDims ⟨a, b, c⟩)).map (fun t => ⟨t.1, t.2.1, t.2.2⟩) ∧
    (a ≠ b → b ≠ c → a ≠ c → (getPalletOrientations ⟨a, b, c⟩).length = 6) ∧
    (a = b → b ≠ c → (getPalletOrientations ⟨a, b, c⟩).length = 3) ∧
    (a = c → a ≠ b → (getPalletOrientations ⟨a, b, c⟩).length = 3) ∧
    (b = c → a ≠ b → (getPalletOrientations ⟨a, b, c⟩).length = 3) ∧
    (a = b → b = c → (getPalletOrientations ⟨a, b, c⟩).length = 1) ∧
    1 ≤ (getPalletOrientations ⟨a, b, c⟩).length ∧
    (getPalletOrientations ⟨a, b, c⟩).length ≤ 6 := by
  refine ⟨?_, ?_, ?_, ?_, ?_, ?_, ?_, ?_⟩
  · unfold getPalletOrientations
    rw [dedupSeen_eq_spec]
    simp
  · intro hab hbc hac
    unfold getPalletOrientations
    rw [List.length_map]
    rw [show dedupSeen [] (palletDims ⟨a, b, c⟩) =
      [(a, b, c), (a, c, b), (b, a, c), (b, c, a), (c, a, b), (c, b, a)] from by
      simp [palletDims, dedupSeen, hab, hbc, hac, Ne.symm hab, Ne.symm hbc, Ne.symm hac]]
    rfl
  · intro hab hbc
    subst hab
    unfold getPalletOrientations
    rw [List.length_map]
    rw [show dedupSeen [] (palletDims ⟨a, a, c⟩) = [(a, a, c), (a, c, a), (c, a, a)] from by
      simp [palletDims, dedupSeen, hbc, Ne.symm hbc]]
    rfl
  · intro hac hab
    subst hac
    unfold getPalletOrientations
    rw [List.length_map]
    rw [show dedupSeen [] (palletDims ⟨a, b, a⟩) = [(a, b, a), (a, a, b), (b, a, a)] from by
      simp [palletDims, dedupSeen, hab, Ne.symm hab]]
    rfl
  · intro hbc hab
    subst hbc
    unfold getPalletOrientations
    rw [List.length_map]
    rw [show dedupSeen [] (palletDims ⟨a, b, b⟩) = [(a, b, b), (b, a, b), (b, b, a)] from by
      simp [palletDims, dedupSeen, hab, Ne.symm hab]]
    rfl
  · intro hab hbc
    subst hab
    subst hbc
    unfold getPalletOrientations
    rw [List.length_map]
    rw [show dedupSeen [] (palletDims ⟨a, a, a⟩) = [(a, a, a)] from by
      simp [palletDims, dedupSeen]]
    rfl
  · unfold getPalletOrientations
    rw [List.length_map]
    exact dedupSeen_nil_length_pos (a, b, c) _
  · unfold getPalletOrientations
    rw [List.length_map]
    exact le_trans (dedupSeen_length_le (palletDims ⟨a, b, c⟩) []) (by rfl)

/-! ## Lemmas about layer-height candidates -/

/-- An entry of `mapSet m k v` is an old entry or the new pair. -/
theorem mapSet_mem_weak :
    ∀ (m : List (ℚ × ℚ)) (k v : ℚ) (e : ℚ × ℚ), e ∈ mapSet m k v →
      e ∈ m ∨ e = (k, v)
  | [], k, v, e => by
    intro he
    simp only [mapSet, List.mem_singleton] at he
    exact Or.inr he
  | (k', v') :: rest, k, v, e => by
    intro he
    unfold mapSet at he
    split at he
    · rcases List.mem_cons.1 he with rfl | he'
      · exact Or.inr rfl
      · exact Or.inl (List.mem_cons_of_mem _ he')
    · rcases List.mem_cons.1 he with rfl | he'
      · exact Or.inl (List.mem_cons_self _ _)
      · rcases mapSet_mem_weak rest k v e he' with h | h
        · exact Or.inl (List.mem_cons_of_mem _ h)
        · exact Or.inr h

/-- The key sequence after a `Map.set`: unchanged when the key is present,
extended by the key otherwise. -/
theorem mapSet_keys :
    ∀ (m : List (ℚ × ℚ)) (k v : ℚ),
      (mapSet m k v).map Prod.fst =
        if k ∈ m.map Prod.fst then m.map Prod.fst else m.map Prod.fst ++ [k]
  | [], k, v => by simp [mapSet]
  | (k', v') :: rest, k, v => by
    unfold mapSet
    by_cases hk : k' = k
    · subst hk
      rw [if_pos rfl]
      simp
    · rw [if_neg hk]
      have := mapSet_keys rest k v
      by_cases hmem : k ∈ rest.map Prod.fst
      · rw [if_pos hmem] at this
        simp only [List.map_cons, this]
        rw [if_pos (by simp [hmem])]
      · rw [if_neg hmem] at this
        simp only [List.map_cons, this]
        rw [if_neg (by simp [hmem, Ne.symm hk])]
        simp

/-- `Map.set` preserves distinctness of keys. -/
theorem mapSet_nodup (m : List (ℚ × ℚ)) (k v : ℚ)
    (h : (m.map Prod.fst).Nodup) : ((mapSet m k v).map Prod.fst).Nodup := by
  rw [mapSet_keys]
  split
  · exact h
  · rename_i hk
    simp [List.nodup_append, h, hk]

/-- Invariant of the height-collection fold: keys stay distinct, every entry's
value is the score of its key, every key is a processed dimension within the
height bound, and conversely every in-bound processed dimension appears as a
key. -/
theorem collect_invariant (boxes : List Box) (H : ℚ) :
    ∀ (dims : List ℚ) (m : List (ℚ × ℚ)),
      (m.map Prod.fst).Nodup →
      (∀ e ∈ m, e.2 = scoreForHeight boxes e.1) →
      (∀ e ∈ m, e.1 ≤ H) →
      ((((dims.foldl (fun m dim =>
          if dim ≤ H then mapSet m dim (scoreForHeight boxes dim) else m) m)).map
            Prod.fst).Nodup ∧
        (∀ e ∈ dims.foldl (fun m dim =>
          if dim ≤ H then mapSet m dim (scoreForHeight boxes dim) else m) m,
          e.2 = scoreForHeight boxes e.1) ∧
        (∀ e ∈ dims.foldl (fun m dim =>
          if dim ≤ H then mapSet m dim (scoreForHeight boxes dim) else m) m,
          e.1 ≤ H) ∧
        (∀ k, k ∈ (dims.foldl (fun m dim =>
            if dim ≤ H then mapSet m dim (scoreForHeight boxes dim) else m) m).map
              Prod.fst ↔
          (k ∈ m.map Prod.fst ∨ (k ∈ dims ∧ k ≤ H))))
  | [], m => by
    intro hnd hval hle
    refine ⟨hnd, hval, hle, fun k => ?_⟩
    simp
  | dim :: dims, m => by
    intro hnd hval hle
    rw [List.foldl_cons]
    by_cases hdH : dim ≤ H
    · rw [if_pos hdH]
      obtain ⟨ihnd, ihval, ihle, ihkeys⟩ :=
        collect_invariant boxes H dims (mapSet m dim (scoreForHeight boxes dim))
          (mapSet_nodup m dim _ hnd)
          (fun e he => by
            rcases mapSet_mem_weak m dim _ e he with h | h
            · exact hval e h
            · rw [h])
          (fun e he => by
            rcases mapSet_mem_weak m dim _ e he with h | h
            · exact hle e h
            · rw [h]; exact hdH)
      refine ⟨ihnd, ihval, ihle, fun k => ?_⟩
      rw [ihkeys k, mapSet_keys]
      by_cases hkm : dim ∈ m.map Prod.fst
      · rw [if_pos hkm]
        constructor
        · rintro (h | h)
          · exact Or.inl h
          · exact Or.inr ⟨List.mem_cons_of_mem dim h.1, h.2⟩
        · rintro (h | ⟨h1, h2⟩)
          · exact Or.inl h
          · rcases List.mem_cons.1 h1 with rfl | h1'
            · exact Or.inl hkm
            · exact Or.inr ⟨h1', h2⟩
      · rw [if_neg hkm]
        constructor
        · rintro (h | h)
          · rcases List.mem_append.1 h with h' | h'
            · exact Or.inl h'
            · simp only [List.mem_singleton] at h'
              exact Or.inr ⟨h' ▸ List.mem_cons_self dim dims, h' ▸ hdH⟩
          · exact Or.inr ⟨List.mem_cons_of_mem dim h.1, h.2⟩
        · rintro (h | ⟨h1, h2⟩)
          · exact Or.inl (List.mem_append.2 (Or.inl h))
          · rcases List.mem_cons.1 h1 with rfl | h1'
            · exact Or.inl (List.mem_append.2 (Or.inr (List.mem_singleton.2 rfl)))
            · exact Or.inr ⟨h1', h2⟩
    · rw [if_neg hdH]
      obtain ⟨ihnd, ihval, ihle, ihkeys⟩ := collect_invariant boxes H dims m hnd hval hle
      refine ⟨ihnd, ihval, ihle, fun k => ?_⟩
      rw [ihkeys k]
      constructor
      · rintro (h | h)
        · exact Or.inl h
        · exact Or.inr ⟨List.mem_cons_of_mem dim h.1, h.2⟩
      · rintro (h | ⟨h1, h2⟩)
        · exact Or.inl h
        · rcases List.mem_cons.1 h1 with rfl | h1'
          · exact absurd h2 hdH
          · exact Or.inr ⟨h1', h2⟩

/-- Inserting into a sorted-by-`≤` list preserves each equal-score class:
the inserted element lands in front of its own class and no other class
moves. -/
theorem orderedInsert_filter_class (s : ℚ) (a : LayerCandidate) :
    ∀ l : List LayerCandidate,
      (List.orderedInsert candLE a l).filter (fun c => c.evalScore = s) =
        if a.evalScore = s then a :: l.filter (fun c => c.evalScore = s)
        else l.filter (fun c => c.evalScore = s)
  | [] => by
    by_cases hpa : a.evalScore = s <;> simp [List.orderedInsert, hpa]
  | b :: l => by
    by_cases hab : candLE a b
    · rw [List.orderedInsert_of_le candLE l hab]
      by_cases hpa : a.evalScore = s <;> simp [List.filter_cons, hpa]
    · rw [show List.orderedInsert candLE a (b :: l) =
        b :: List.orderedInsert candLE a l from by
        simp [List.orderedInsert, hab]]
      have hlt : b.evalScore < a.evalScore := lt_of_not_le hab
      by_cases hpa : a.evalScore = s
      · have hpb : ¬(b.evalScore = s) := by
          intro hpb
          rw [hpa] at hlt
          rw [hpb] at hlt
          exact lt_irrefl s hlt
        rw [List.filter_cons, if_neg (by simpa using hpb)]
        rw [orderedInsert_filter_class s a l, if_pos hpa, if_pos hpa]
        rw [List.filter_cons, if_neg (by simpa using hpb)]
      · by_cases hpb : b.evalScore = s
        · rw [List.filter_cons, if_pos (by simpa using hpb)]
          rw [orderedInsert_filter_class s a l, if_neg hpa, if_neg hpa]
          rw [List.filter_cons, if_pos (by simpa using hpb)]
        · rw [List.filter_cons, if_neg (by simpa using hpb)]
          rw [orderedInsert_filter_class s a l, if_neg hpa, if_neg hpa]
          rw [List.filter_cons, if_neg (by simpa using hpb)]

/-- Stability of the sort: each equal-score class of the sorted list is the
class of the input list, in the input order. -/
theorem insertionSort_filter_class (s : ℚ) :
    ∀ l : List LayerCandidate,
      (List.insertionSort candLE l).filter (fun c => c.evalScore = s) =
        l.filter (fun c => c.evalScore = s)
  | [] => rfl
  | a :: l => by
    rw [show List.insertionSort candLE (a :: l) =
      List.orderedInsert candLE a (List.insertionSort candLE l) from rfl]
    rw [orderedInsert_filter_class s a (List.insertionSort candLE l)]
    rw [insertionSort_filter_class s l]
    by_cases hpa : a.evalScore = s
    · rw [if_pos hpa, List.filter_cons, if_pos (by simpa using hpa)]
    · rw [if_neg hpa, List.filter_cons, if_neg (by simpa using hpa)]

/-- Claim C7: `buildLayerCandidates` returns exactly one `(height, score)`
pair per distinct box-dimension value not exceeding the pallet height (first
two conjuncts: heights are pairwise distinct, and membership is exactly the
in-bound dimension values paired with the sum over all box types of the
minimum absolute difference between the type's three dimensions and the
height); the list is sorted ascending by score (third conjunct); and ties are
broken by the height's position of first occurrence: within every equal-score
class the order is that of the insertion-ordered pre-sort list, whose keys
appear in first-occurrence order (fourth conjunct, stability of the sort). -/
theorem C7_layer_candidates (boxes : List Box) (pallet : Pallet) :
    ((buildLayerCandidates boxes pallet).map LayerCandidate.height).Nodup ∧
    (∀ hgt s : ℚ, (⟨hgt, s⟩ : LayerCandidate) ∈ buildLayerCandidates boxes pallet ↔
      (hgt ∈ boxDims boxes ∧ hgt ≤ pallet.h ∧ s = scoreForHeight boxes hgt)) ∧
    (buildLayerCandidates boxes pallet).Pairwise candLE ∧
    (∀ s : ℚ, (buildLayerCandidates boxes pallet).filter (fun c => c.evalScore = s) =
      ((collectHeights boxes pallet.h).map
        (fun e => (⟨e.1, e.2⟩ : LayerCandidate))).filter (fun c => c.evalScore = s)) := by
  obtain ⟨hnd, hval, hle, hkeys⟩ :=
    collect_invariant boxes pallet.h (boxDims boxes) [] (by simp) (by simp) (by simp)
  have hperm : List.Perm
      (List.insertionSort candLE
        ((collectHeights boxes pallet.h).map (fun e => (⟨e.1, e.2⟩ : LayerCandidate))))
      ((collectHeights boxes pallet.h).map (fun e => (⟨e.1, e.2⟩ : LayerCandidate))) :=
    List.perm_insertionSort candLE _
  have hmapheights :
      (((collectHeights boxes pallet.h).map
        (fun e => (⟨e.1, e.2⟩ : LayerCandidate))).map LayerCandidate.height) =
      (collectHeights boxes pallet.h).map Prod.fst := by
    rw [List.map_map]
    rfl
  refine ⟨?_, ?_, ?_, ?_⟩
  · unfold buildLayerCandidates
    rw [(hperm.map LayerCandidate.height).nodup_iff, hmapheights]
    exact hnd
  · intro hgt s
    unfold buildLayerCandidates
    rw [hperm.mem_iff]
    constructor
    · intro hmem
      obtain ⟨e, he, heq⟩ := List.mem_map.1 hmem
      have he1 : e.1 = hgt := congrArg LayerCandidate.height heq
      have he2 : e.2 = s := congrArg LayerCandidate.evalScore heq
      have hkey : e.1 ∈ (collectHeights boxes pallet.h).map Prod.fst :=
        List.mem_map_of_mem Prod.fst he
      rcases (hkeys e.1).1 hkey with h | h
      · simp at h
      · refine ⟨he1 ▸ h.1, he1 ▸ h.2, ?_⟩
        rw [← he2, ← he1]
        exact hval e he
    · rintro ⟨hdim, hH, hs⟩
      have hkey : hgt ∈ (collectHeights boxes pallet.h).map Prod.fst :=
        (hkeys hgt).2 (Or.inr ⟨hdim, hH⟩)
      obtain ⟨e, he, he1⟩ := List.mem_map.1 hkey
      have he2 : e.2 = scoreForHeight boxes e.1 := hval e he
      refine List.mem_map.2 ⟨e, he, ?_⟩
      have : e = (hgt, s) := by
        rw [hs, ← he1, ← he2]
      rw [this]
  · exact List.sorted_insertionSort candLE _
  · intro s
    exact insertionSort_filter_class s _

/-! ## Claim theorems -/

/-- Claim C1 (code bug): the profile `[⟨0,5⟩, ⟨10,2⟩, ⟨84,0⟩]` satisfies all
four skyline invariants for a pallet of width 84 (strictly increasing x, no
two adjacent nodes share z, first node at x = 0, sentinel at x = 84), yet the
single commit `skylineUpdate` of the interval `[10, 30)` to top depth 5
returns `[⟨10,5⟩, ⟨30,2⟩, ⟨84,0⟩]`, whose first node is at x = 10, not 0: the
equal-`z` run `⟨0,5⟩, ⟨10,5⟩` is collapsed by `mergeNodes` to its *later*
breakpoint, dropping the region `[0, 10)` from the profile.  (The other three
invariants still hold of the output.) -/
theorem C1_merge_moves_first_node :
    (nodesStrictX [⟨0, 5⟩, ⟨10, 2⟩, ⟨84, 0⟩] = true
      ∧ nodesNoAdjZ [⟨0, 5⟩, ⟨10, 2⟩, ⟨84, 0⟩] = true
      ∧ (List.head? [Node.mk 0 5, ⟨10, 2⟩, ⟨84, 0⟩]).map Node.x = some 0
      ∧ (List.getLast? [Node.mk 0 5, ⟨10, 2⟩, ⟨84, 0⟩]).map Node.x = some 84)
    ∧ skylineUpdate [⟨0, 5⟩, ⟨10, 2⟩, ⟨84, 0⟩] 10 20 5 = [⟨10, 5⟩, ⟨30, 2⟩, ⟨84, 0⟩]
    ∧ (List.head? (skylineUpdate [⟨0, 5⟩, ⟨10, 2⟩, ⟨84, 0⟩] 10 20 5)).map Node.x ≠ some 0 := by
  decide

/-- Claim C2 (counterexample): with catalog `[(84,10,30)×1, (80,10,20)×1,
(4,10,74)×1]`, pallet `(84,100,104)` and target layer height 10, the layer
packer's first two commits produce the two-gap profile
`[⟨0,50⟩, ⟨80,30⟩, ⟨84,0⟩]`; at that state the scan commits the remaining
box in orientation `(74,10,4)` at the leftmost gap (width 80, available depth
54) with score 650, even though the same box in orientation `(4,10,74)` is
feasible at the second gap (width 4, available depth 74) with score 0 — so
the step does not commit the globally best-scoring candidate across all
gaps. -/
theorem C2_not_globally_best :
    (packLayerSkyline [⟨0, 84, 10, 30, 1⟩, ⟨1, 80, 10, 20, 1⟩, ⟨2, 4, 10, 74, 1⟩]
        ⟨84, 100, 104⟩ 10 0).placed =
      [⟨0, 84, 10, 30, 1, 0, 0, 0, (84, 10, 30)⟩,
       ⟨1, 80, 10, 20, 1, 0, 0, 30, (80, 10, 20)⟩,
       ⟨2, 74, 10, 4, 1, 0, 0, 50, (74, 10, 4)⟩]
    ∧ stepPlace ⟨84, 100, 104⟩ 10 0
        [⟨0, 84, 10, 30, 1⟩, ⟨1, 80, 10, 20, 1⟩, ⟨2, 4, 10, 74, 1⟩] [⟨0, 0⟩, ⟨84, 0⟩] =
        some (⟨0, 84, 10, 30, 1, 0, 0, 0, (84, 10, 30)⟩,
          [⟨0, 84, 10, 30, 0⟩, ⟨1, 80, 10, 20, 1⟩, ⟨2, 4, 10, 74, 1⟩],
          [⟨0, 30⟩, ⟨84, 0⟩])
    ∧ stepPlace ⟨84, 100, 104⟩ 10 0
        [⟨0, 84, 10, 30, 0⟩, ⟨1, 80, 10, 20, 1⟩, ⟨2, 4, 10, 74, 1⟩] [⟨0, 30⟩, ⟨84, 0⟩] =
        some (⟨1, 80, 10, 20, 1, 0, 0, 30, (80, 10, 20)⟩,
          [⟨0, 84, 10, 30, 0⟩, ⟨1, 80, 10, 20, 0⟩, ⟨2, 4, 10, 74, 1⟩],
          [⟨0, 50⟩, ⟨80, 30⟩, ⟨84, 0⟩])
    ∧ scanGaps [⟨0, 84, 10, 30, 0⟩, ⟨1, 80, 10, 20, 0⟩, ⟨2, 4, 10, 74, 1⟩] 104 10
        [⟨0, 50⟩, ⟨80, 30⟩, ⟨84, 0⟩] =
        some ⟨2, (74, 10, 4), 650, 80, 54, 0, 50⟩
    ∧ scanGaps [⟨0, 84, 10, 30, 0⟩, ⟨1, 80, 10, 20, 0⟩, ⟨2, 4, 10, 74, 1⟩] 104 10
        [⟨80, 30⟩, ⟨84, 0⟩] =
        some ⟨2, (4, 10, 74), 0, 4, 74, 80, 30⟩
    ∧ ((0 : ℚ) < 650) := by
  decide

/-- Claim C2 (corrected): each step of the layer packer commits the candidate
of the *leftmost* gap that admits one, and that candidate is best-scoring
*within its own gap*: whenever the gap scan commits a placement, no available
box (positive remaining quantity) has an orientation fitting the committed
gap's recorded width and depth with a strictly lower composite score. -/
theorem C2_leftmost_gap_best (boxes : List Box) (D lh : ℚ) (l : List Node)
    (pl : Placement) (h : scanGaps boxes D lh l = some pl) :
    ∀ (k : Nat) (b : Box) (o : ℚ × ℚ × ℚ), boxes[k]? = some b → 0 < b.qty →
      o ∈ orientsOf b → o.1 ≤ pl.gapW → o.2.2 ≤ pl.gapD →
      pl.score ≤ scoreOf pl.gapW pl.gapD lh lh o :=
  scanGaps_min boxes D lh l pl h

/-- Witness for C2 (corrected) at a concrete input. -/
theorem C2_leftmost_gap_best_witness :
    (scanGaps [⟨7, 2, 3, 4, 1⟩] 100 3 [⟨0, 0⟩, ⟨10, 0⟩] =
      some ⟨0, (4, 3, 2), 698, 10, 100, 0, 0⟩)
    ∧ ([(⟨7, 2, 3, 4, 1⟩ : Box)][0]? = some ⟨7, 2, 3, 4, 1⟩)
    ∧ ((0 : Int) < 1)
    ∧ ((2, 3, 4) ∈ orientsOf ⟨7, 2, 3, 4, 1⟩)
    ∧ ((2 : ℚ) ≤ 10) ∧ ((4 : ℚ) ≤ 100)
    ∧ (650 : ℚ) ≤ 650
    ∧ (698 : ℚ) ≤ scoreOf 10 100 3 3 (2, 3, 4) := by
  refine ⟨by decide, by decide, by decide, by decide, by decide, by decide, by decide, ?_⟩
  exact C2_leftmost_gap_best [⟨7, 2, 3, 4, 1⟩] 100 3 [⟨0, 0⟩, ⟨10, 0⟩]
    ⟨0, (4, 3, 2), 698, 10, 100, 0, 0⟩ (by decide) 0 ⟨7, 2, 3, 4, 1⟩ (2, 3, 4)
    (by decide) (by decide) (by decide) (by decide) (by decide)

/-- Claim C3 (counterexample): for a gap of width 10 and depth 10, target
layer height 5, and orientation `(10, 4, 10)` (which fits the layer, penalty
`p = |4 − 5| = 1` and exact width/depth match), the score computed by the
code is `10000`, whereas the claimed formula `p + 100·|Δw| + |Δd|` gives `1`:
the code multiplies the penalty by 10000. -/
theorem C3_score_mismatch :
    scoreOf 10 10 5 5 (10, 4, 10) = 10000
    ∧ claimedScoreC3 10 10 5 5 (10, 4, 10) = 1
    ∧ ((10000 : ℚ) ≠ 1) := by
  decide

/-- The code's score equals the amended formula `10000·p + 100·|Δw| + |Δd|`. -/
theorem scoreOf_eq_specScoreC3 (gw gd lh my : ℚ) (o : ℚ × ℚ × ℚ) :
    scoreOf gw gd lh my o = specScoreC3 gw gd lh my o := by
  unfold scoreOf specScoreC3
  dsimp only
  by_cases hfit : o.2.1 ≤ my
  · rw [if_pos hfit, if_pos hfit, abs_sub_comm lh o.2.1]
    ring
  · rw [if_neg hfit, if_neg hfit]
    ring

/-- Claim C3 (corrected): every feasible (box, orientation, gap) triple is
scored as `10000·p + 100·|width − gap width| + |depth − gap depth|`, where
`p = |height − target|` when the orientation's height fits within the target
layer height and `p = 100000 + |height − target|` otherwise; in particular
the candidate recorded by `findBestBoxForGap` carries exactly that score for
its orientation. -/
theorem C3_score_formula (boxes : List Box) (gw gd lh my : ℚ) (c : Cand)
    (h : findBestBoxForGap boxes gw gd lh my = some c) :
    c.score = specScoreC3 gw gd lh my c.orient
    ∧ ∀ o : ℚ × ℚ × ℚ, scoreOf gw gd lh my o = specScoreC3 gw gd lh my o := by
  obtain ⟨b, -, -, -, hs, -, -⟩ := findBestBoxForGap_sound boxes gw gd lh my c h
  exact ⟨hs.trans (scoreOf_eq_specScoreC3 gw gd lh my c.orient),
    scoreOf_eq_specScoreC3 gw gd lh my⟩

/-- Witness for C3 (corrected) at a concrete input. -/
theorem C3_score_formula_witness :
    (findBestBoxForGap [⟨0, 1, 1, 1, 1⟩] 2 2 1 1 = some ⟨0, (1, 1, 1), 101⟩)
    ∧ ((101 : ℚ) = specScoreC3 2 2 1 1 (1, 1, 1)
        ∧ ∀ o : ℚ × ℚ × ℚ, scoreOf 2 2 1 1 o = specScoreC3 2 2 1 1 o) := by
  refine ⟨by decide, ?_⟩
  exact C3_score_formula [⟨0, 1, 1, 1, 1⟩] 2 2 1 1 ⟨0, (1, 1, 1), 101⟩ (by decide)

/-- Claim C4 (counterexample): with one box type `(2,4,2)×2`, pallet
`(2,100,2)` and nominal layer height 10, the first layer (at y = 0) places a
single box of actual height 4, yet the second layer starts at y = 10 — the
cursor advanced by the nominal height 10, not by the maximum actual placed
height 4. -/
theorem C4_advance_not_max_placed :
    (packPalletWithLayers [⟨0, 2, 4, 2, 2⟩] ⟨2, 100, 2⟩ [⟨10, 0⟩]).placed.map
      PlacedBox.y = [0, 10]
    ∧ maxPlacedOf (packLayerSkyline [⟨0, 2, 4, 2, 2⟩] ⟨2, 100, 2⟩ 10 0).placed = 4
    ∧ ((10 : ℚ) ≠ 0 + 4) := by
  decide

/-- Witness for C4 (corrected) at a concrete input. -/
theorem C4_cursor_advance_witness :
    ((0 : ℚ) < Pallet.h ⟨2, 100, 2⟩)
    ∧ ((packLayerSkyline [⟨0, 2, 4, 2, 2⟩] ⟨2, 100, 2⟩
        (if Pallet.h ⟨2, 100, 2⟩ < 0 + 10 then Pallet.h ⟨2, 100, 2⟩ - 0 else 10) 0).placed ≠ [])
    ∧ packLayers ⟨2, 100, 2⟩ (1 + 1) [⟨0, 2, 4, 2, 2⟩] 0 10 =
        (packLayerSkyline [⟨0, 2, 4, 2, 2⟩] ⟨2, 100, 2⟩
          (if Pallet.h ⟨2, 100, 2⟩ < 0 + 10 then Pallet.h ⟨2, 100, 2⟩ - 0 else 10) 0).placed ++
        packLayers ⟨2, 100, 2⟩ 1
          (packLayerSkyline [⟨0, 2, 4, 2, 2⟩] ⟨2, 100, 2⟩
            (if Pallet.h ⟨2, 100, 2⟩ < 0 + 10 then Pallet.h ⟨2, 100, 2⟩ - 0 else 10) 0).boxesOut
          (0 + max (if Pallet.h ⟨2, 100, 2⟩ < 0 + 10 then Pallet.h ⟨2, 100, 2⟩ - 0 else 10)
            (maxPlacedOf (packLayerSkyline [⟨0, 2, 4, 2, 2⟩] ⟨2, 100, 2⟩
              (if Pallet.h ⟨2, 100, 2⟩ < 0 + 10 then Pallet.h ⟨2, 100, 2⟩ - 0 else 10) 0).placed))
          (if Pallet.h ⟨2, 100, 2⟩ < 0 + 10 then Pallet.h ⟨2, 100, 2⟩ - 0 else 10) := by
  refine ⟨by decide, by decide, ?_⟩
  exact C4_cursor_advance ⟨2, 100, 2⟩ 1 [⟨0, 2, 4, 2, 2⟩] 0 10 (by decide) (by decide)

/-- Claim C5 (counterexample): with one box type `(2,50,2)×1`, pallet
`(2,10,2)` (volume 40) and layer candidate height 2, the packer places the
box standing 50 tall through the pallet ceiling: the placed volume is 200 and
the returned utilization is 5, violating both `utilization ≤ 1` and the
placed-volume bound. -/
theorem C5_utilization_above_one :
    (packPalletWithLayers [⟨0, 2, 50, 2, 1⟩] ⟨2, 10, 2⟩ [⟨2, 0⟩]).utilization = 5
    ∧ usedVolume (packPalletWithLayers [⟨0, 2, 50, 2, 1⟩] ⟨2, 10, 2⟩ [⟨2, 0⟩]).placed = 200
    ∧ Pallet.w ⟨2, 10, 2⟩ * Pallet.h ⟨2, 10, 2⟩ * Pallet.d ⟨2, 10, 2⟩ = 40
    ∧ ¬((5 : ℚ) ≤ 1) ∧ ¬((200 : ℚ) ≤ 40) := by
  decide

/-- Claim C6: after a run of `packLayerSkyline` on a catalog with pairwise
distinct identifiers, every catalog entry's initial quantity equals its
returned quantity plus the number of placements bearing its identifier; a
type with zero initial quantity receives no placement; and a non-negative
initial quantity yields a non-negative returned quantity. -/
theorem C6_conservation (boxesIn : List Box) (pallet : Pallet) (lh y : ℚ)
    (hnd : (boxesIn.map Box.id).Nodup) :
    ∀ (j : Nat) (b : Box), boxesIn[j]? = some b →
      ∃ b', (packLayerSkyline boxesIn pallet lh y).boxesOut[j]? = some b'
        ∧ b'.id = b.id
        ∧ b.qty = b'.qty +
            (countId (packLayerSkyline boxesIn pallet lh y).placed b.id : Int)
        ∧ (b.qty = 0 → countId (packLayerSkyline boxesIn pallet lh y).placed b.id = 0)
        ∧ (0 ≤ b.qty → 0 ≤ b'.qty) := by
  intro j b hj
  obtain ⟨b', hb', hid, hcons, hnn⟩ :=
    packLayerLoop_conservation pallet lh y (totalQtyNat boxesIn + 1) boxesIn
      [⟨0, 0⟩, ⟨pallet.w, 0⟩] hnd j b hj
  refine ⟨b', hb', hid, hcons, ?_, hnn⟩
  intro hq0
  have h1 := hnn (by omega)
  have hcons2 : b.qty = b'.qty +
      (countId (packLayerSkyline boxesIn pallet lh y).placed b.id : Int) := hcons
  omega

/-- Witness for C6 at a concrete input. -/
theorem C6_conservation_witness :
    (([(⟨5, 1, 1, 1, 2⟩ : Box)].map Box.id).Nodup)
    ∧ ([(⟨5, 1, 1, 1, 2⟩ : Box)][0]? = some ⟨5, 1, 1, 1, 2⟩)
    ∧ ∃ b', (packLayerSkyline [⟨5, 1, 1, 1, 2⟩] ⟨3, 3, 3⟩ 1 0).boxesOut[0]? = some b'
        ∧ b'.id = 5
        ∧ (2 : Int) = b'.qty +
            (countId (packLayerSkyline [⟨5, 1, 1, 1, 2⟩] ⟨3, 3, 3⟩ 1 0).placed 5 : Int)
        ∧ ((2 : Int) = 0 → countId (packLayerSkyline [⟨5, 1, 1, 1, 2⟩] ⟨3, 3, 3⟩ 1 0).placed 5 = 0)
        ∧ ((0 : Int) ≤ 2 → 0 ≤ b'.qty) := by
  exact ⟨by decide, by decide,
    C6_conservation [⟨5, 1, 1, 1, 2⟩] ⟨3, 3, 3⟩ 1 0 (by decide) 0 ⟨5, 1, 1, 1, 2⟩ (by decide)⟩

/-- Witness for C8 at the all-distinct triple `(1, 2, 3)`. -/
theorem C8_pallet_orientations_witness :
    ((0 : ℚ) < 1 ∧ (0 : ℚ) < 2 ∧ (0 : ℚ) < 3)
    ∧ (getPalletOrientations ⟨1, 2, 3⟩ =
        (specDedupFirst (palletDims ⟨1, 2, 3⟩)).map (fun t => ⟨t.1, t.2.1, t.2.2⟩)
      ∧ ((1 : ℚ) ≠ 2 → (2 : ℚ) ≠ 3 → (1 : ℚ) ≠ 3 →
          (getPalletOrientations ⟨1, 2, 3⟩).length = 6)
      ∧ ((1 : ℚ) = 2 → (2 : ℚ) ≠ 3 → (getPalletOrientations ⟨1, 2, 3⟩).length = 3)
      ∧ ((1 : ℚ) = 3 → (1 : ℚ) ≠ 2 → (getPalletOrientations ⟨1, 2, 3⟩).length = 3)
      ∧ ((2 : ℚ) = 3 → (1 : ℚ) ≠ 2 → (getPalletOrientations ⟨1, 2, 3⟩).length = 3)
      ∧ ((1 : ℚ) = 2 → (2 : ℚ) = 3 → (getPalletOrientations ⟨1, 2, 3⟩).length = 1)
      ∧ 1 ≤ (getPalletOrientations ⟨1, 2, 3⟩).length
      ∧ (getPalletOrientations ⟨1, 2, 3⟩).length ≤ 6) := by
  exact ⟨by decide,
    C8_pallet_orientations 1 2 3 (by decide) (by decide) (by decide)⟩

/-- Claim C9: both packing loops terminate because every committed placement
decrements a positive total remaining quantity: the layer loop and the
stacking loop are insensitive to any fuel beyond `totalQtyNat boxes`, so the
canonical fuel `totalQtyNat boxes + 1` (used by `packLayerSkyline` and
`packPalletWithLayers`) computes their fixpoint. -/
theorem C9_fuel_termination (pallet : Pallet) (lh y : ℚ) (boxes : List Box)
    (nodes : List Node) (f : Nat) (hf : totalQtyNat boxes < f) :
    packLayerLoop pallet lh y f boxes nodes =
      packLayerLoop pallet lh y (totalQtyNat boxes + 1) boxes nodes
    ∧ packLayers pallet f boxes y lh =
      packLayers pallet (totalQtyNat boxes + 1) boxes y lh :=
  ⟨packLayerLoop_fuel pallet lh y (totalQtyNat boxes) f (totalQtyNat boxes + 1)
      boxes nodes rfl hf (Nat.lt_succ_self _),
    packLayers_fuel pallet (totalQtyNat boxes) f (totalQtyNat boxes + 1)
      boxes y lh rfl hf (Nat.lt_succ_self _)⟩

/-- Witness for C9 at a concrete input. -/
theorem C9_fuel_termination_witness :
    (totalQtyNat [⟨0, 1, 1, 1, 1⟩] < 3)
    ∧ (packLayerLoop ⟨2, 2, 2⟩ 1 0 3 [⟨0, 1, 1, 1, 1⟩] [⟨0, 0⟩, ⟨2, 0⟩] =
        packLayerLoop ⟨2, 2, 2⟩ 1 0 (totalQtyNat [⟨0, 1, 1, 1, 1⟩] + 1)
          [⟨0, 1, 1, 1, 1⟩] [⟨0, 0⟩, ⟨2, 0⟩]
      ∧ packLayers ⟨2, 2, 2⟩ 3 [⟨0, 1, 1, 1, 1⟩] 0 1 =
        packLayers ⟨2, 2, 2⟩ (totalQtyNat [⟨0, 1, 1, 1, 1⟩] + 1) [⟨0, 1, 1, 1, 1⟩] 0 1) := by
  exact ⟨by decide,
    C9_fuel_termination ⟨2, 2, 2⟩ 1 0 [⟨0, 1, 1, 1, 1⟩] [⟨0, 0⟩, ⟨2, 0⟩] 3 (by decide)⟩

/-- Claim C10: for every run of `packLayerSkyline` on a pallet with positive
dimensions and a catalog of boxes with positive dimensions, every returned
`PlacedBox` is contained within the pallet's cross-section: `0 ≤ x` and
`x + w ≤ pallet.w` along the width axis, `0 ≤ z` and `z + d ≤ pallet.d` along
the depth axis.  (No such bound holds along the stacking axis `y`, as the C5
counterexample shows.) -/
theorem C10_cross_section_containment (boxes : List Box) (pallet : Pallet)
    (lh y : ℚ) (hw : 0 < pallet.w) (_hh : 0 < pallet.h) (_hd : 0 < pallet.d)
    (hbp : ∀ b ∈ boxes, 0 < b.w ∧ 0 < b.h ∧ 0 < b.d) :
    ∀ p ∈ (packLayerSkyline boxes pallet lh y).placed,
      0 ≤ p.x ∧ p.x + p.w ≤ pallet.w ∧ 0 ≤ p.z ∧ p.z + p.d ≤ pallet.d := by
  intro p hp
  refine packLayerLoop_containment pallet lh y (totalQtyNat boxes + 1) boxes
    [⟨0, 0⟩, ⟨pallet.w, 0⟩] (by simp) ?_ hbp p hp
  intro n hn
  rcases List.mem_cons.1 hn with rfl | hn'
  · exact ⟨le_refl 0, le_of_lt hw, le_refl 0⟩
  · simp only [List.mem_singleton] at hn'
    subst hn'
    exact ⟨le_of_lt hw, le_refl _, le_refl 0⟩

/-- Witness for C10 at a concrete input. -/
theorem C10_cross_section_containment_witness :
    ((0 : ℚ) < 2 ∧ (0 : ℚ) < 2 ∧ (0 : ℚ) < 2)
    ∧ (∀ b ∈ [(⟨0, 1, 1, 1, 1⟩ : Box)], 0 < b.w ∧ 0 < b.h ∧ 0 < b.d)
    ∧ ∀ p ∈ (packLayerSkyline [⟨0, 1, 1, 1, 1⟩] ⟨2, 2, 2⟩ 1 0).placed,
        0 ≤ p.x ∧ p.x + p.w ≤ (2 : ℚ) ∧ 0 ≤ p.z ∧ p.z + p.d ≤ (2 : ℚ) := by
  exact ⟨by decide, by decide,
    C10_cross_section_containment [⟨0, 1, 1, 1, 1⟩] ⟨2, 2, 2⟩ 1 0
      (by decide) (by decide) (by decide) (by decide)⟩

end BinPack
